import Mathlib

/-!
Verification of `dirsync.py` (one-way directory synchronization).

This file gives a shallow embedding of the reconciliation engine of the
repository: the fingerprint function `get_md5`, the tree scan
`get_files_in_path`, the two reconciler phases `copy_objects` and
`remove_objects`, the pass driver `do_sync_dirs` together with the
`sched`-based scheduling in `main`, and the `pathlib` helpers
`get_relative_path` / `get_absolute_path`.

Modelling conventions:
  * A filesystem tree is a finite association list from relative paths
    (component lists, as `pathlib` compares paths componentwise) to
    entries, listed in the order `Path.glob` enumerates them (a parent
    directory is listed before its children).  Absolute paths are
    `root ++ relative`; since the source root and target root are fixed
    and distinct, both trees are addressed by their relative paths.
  * Machine effects are explicit: fallible filesystem operations return
    `Except FsErr`, where an error constructor corresponds to the Python
    exception that the operation raises.  Exceptions that a caller
    catches (`except FileNotFoundError` etc.) are handled at the call
    site exactly as in the source; exceptions with no handler propagate
    as `Except.error` out of the phase.
  * `hashlib.md5` is an external library.  Its incremental interface is
    modelled by the accumulated input bytes (`update` appends, which is
    the documented semantics), and the final digest by a concrete
    deterministic function `md5_digest` of the whole byte sequence,
    reduced mod 2^128 (MD5 digests are 128 bits).  No theorem below
    relies on the digest's collision behaviour.
  * A file whose `readable` flag is `false` models a file for which any
    attempt to open or read fails (removed mid-read, permission denied,
    I/O error) -- the failure modes of lines 48-58 of the source.
-/

deriving instance DecidableEq for Except

namespace Dirsync

/-- A byte of file content. -/
abbrev Byte := Nat

/-- A path relative to a fixed root, as its list of components. -/
abbrev Path := List String

/-- A filesystem object: a regular file with its content bytes and a
readability flag, a directory, a named pipe, or a special object
(device, socket, ...) which the scan ignores. -/
inductive Entry where
  | file (content : List Byte) (readable : Bool)
  | dir
  | fifo
  | special
deriving DecidableEq

/-- The kind of a filesystem object, without its content. -/
inductive EntryKind where
  | file
  | dir
  | fifo
  | special
deriving DecidableEq

def Entry.kind : Entry → EntryKind
  | .file _ _ => .file
  | .dir => .dir
  | .fifo => .fifo
  | .special => .special

/-- A directory tree: the objects strictly below the root, in scan order
(`Path.glob` yields a parent directory before its children). -/
abbrev FS := List (Path × Entry)

def lookupFS : FS → Path → Option Entry
  | [], _ => none
  | (q, e) :: rest, p => if q = p then some e else lookupFS rest p

def keysOf (fs : FS) : List Path := fs.map Prod.fst

/-- Model of the external `hashlib.md5` digest: a deterministic function
of the byte sequence, reduced mod 2^128.  It stands in for the real MD5
compression; no theorem relies on its collision behaviour. -/
def md5_digest (bytes : List Byte) : Nat :=
  bytes.foldl (fun acc b => (acc * 257 + b % 256 + 1) % 2 ^ 128) 0

/-- The hexdigest string of the model digest. -/
def hexdigest (bytes : List Byte) : String :=
  (Nat.toDigits 16 (md5_digest bytes)).asString

/-- The Python value produced by `get_md5` (lines 41-58): an md5 hexdigest
string on success, or the `int` 0 on any read failure.  Equality is
Python `==` on that value set: `0` differs from every string, strings
compare by content, and `0 == 0` holds. -/
inductive Md5Result where
  | hash (s : String)
  | zero
deriving DecidableEq

/-- Chunking loop with structural fuel (`fuel` bounds the number of
reads; each read consumes at least one byte). -/
def read_chunks_go (fuel : Nat) (bytes : List Byte) : List (List Byte) :=
  match fuel, bytes with
  | _, [] => []
  | 0, _ :: _ => []
  | f + 1, b :: rest => ((b :: rest).take 4096) :: read_chunks_go f ((b :: rest).drop 4096)

/-- The `file.read(4096)` loop of lines 51-54: the successive 4096-byte
chunks of the content, in order. -/
def read_chunks (bytes : List Byte) : List (List Byte) :=
  read_chunks_go bytes.length bytes

/-- `hashlib.md5().update(chunk)`: the md5 object is modelled by its
accumulated input; `update` appends the chunk (the documented semantics
of incremental hashing: `m.update(a); m.update(b)` equals
`m.update(a + b)`). -/
def md5_update (state chunk : List Byte) : List Byte := state ++ chunk

/-- The byte sequence fed to the digest by the chunked read loop. -/
def stream_bytes (content : List Byte) : List Byte :=
  (read_chunks content).foldl md5_update []

/-- `get_md5` (lines 41-58): open the file, feed it to md5 in 4096-byte
chunks, return the hexdigest; on any failure (file absent, directory,
unreadable) log a warning and return 0.  The function is total: no
exception escapes it. -/
def get_md5 (fs : FS) (filename : Path) : Md5Result :=
  match lookupFS fs filename with
  | some (.file content true) => .hash (hexdigest (stream_bytes content))
  | _ => .zero

/-- A directory snapshot: the dict built by `get_files_in_path`,
relative path to md5-or-None, in scan order. -/
abbrev Snap := List (Path × Option Md5Result)

/-- `get_files_in_path` (lines 66-86): files map to their `get_md5`
value, directories and named pipes to `None`, everything else is
skipped. -/
def get_files_in_path (fs : FS) : Snap :=
  fs.filterMap fun pe =>
    match pe.2 with
    | .file _ _ => some (pe.1, some (get_md5 fs pe.1))
    | .dir => some (pe.1, none)
    | .fifo => some (pe.1, none)
    | .special => none

def snapKeys (s : Snap) : List Path := s.map Prod.fst

def snapValues (s : Snap) : List (Option Md5Result) := s.map Prod.snd

def snapLookup : Snap → Path → Option (Option Md5Result)
  | [], _ => none
  | (q, v) :: rest, p => if q = p then some v else snapLookup rest p

/-- The snapshot value an entry contributes: `some v` if the entry is
recorded with value `v`, `none` if the scan skips it. -/
def entry_val (e : Entry) : Option (Option Md5Result) :=
  match e with
  | .file c true => some (some (.hash (hexdigest (stream_bytes c))))
  | .file _ false => some (some .zero)
  | .dir => some none
  | .fifo => some none
  | .special => none

/-- The guard of line 112 of the source:
`file not in target_files.keys() or (md5 is not None and md5 not in target_files.values())`. -/
def should_copy (target_files : Snap) (file : Path) (md5 : Option Md5Result) : Prop :=
  file ∉ snapKeys target_files ∨ (md5 ≠ none ∧ md5 ∉ snapValues target_files)

instance (t : Snap) (p : Path) (m : Option Md5Result) : Decidable (should_copy t p m) := by
  unfold should_copy; infer_instance

/-- Errors of the modelled filesystem operations, named after the Python
exceptions they correspond to. -/
inductive FsErr where
  | notFound   -- FileNotFoundError
  | fileEx     -- FileExistsError
  | notADir    -- NotADirectoryError / FileExistsError on a non-directory
  | isADir     -- IsADirectoryError
  | notEmpty   -- OSError ENOTEMPTY (directory not empty)
  | cantRead   -- read failure on the source (PermissionError / OSError)
  | blocked    -- opening a fifo for data transfer (never reached below)
deriving DecidableEq

/-- The nonempty prefixes of a path, shortest first. -/
def nonNilPrefixes (p : Path) : List Path :=
  p.inits.filter fun q => ¬ q.isEmpty

/-- One level of `Path.mkdir(parents, exist_ok)`: create the component if
missing, accept an existing directory, fail on any other object. -/
def mkdir_step (fs : FS) (q : Path) : Except FsErr FS :=
  match lookupFS fs q with
  | none => .ok (fs ++ [(q, .dir)])
  | some .dir => .ok fs
  | some _ => .error .notADir

/-- `pathlib.Path(target_file).mkdir(parents, exist_ok)` of line 119. -/
def mkdir_parents (fs : FS) (p : Path) : Except FsErr FS :=
  (nonNilPrefixes p).foldlM mkdir_step fs

/-- `os.mkfifo(target_file)` of line 129. -/
def mkfifo (fs : FS) (p : Path) : Except FsErr FS :=
  match lookupFS fs p with
  | some _ => .error .fileEx
  | none =>
    match p.dropLast with
    | [] => .ok (fs ++ [(p, .fifo)])
    | _ :: _ =>
      match lookupFS fs p.dropLast with
      | some .dir => .ok (fs ++ [(p, .fifo)])
      | some _ => .error .notADir
      | none => .error .notFound

/-- Replace the entry at `p` (overwriting a file in place). -/
def replaceFS (fs : FS) (p : Path) (e : Entry) : FS :=
  fs.map fun pe => if pe.1 = p then (p, e) else pe

/-- `shutil.copy2(src, dst)` of line 95 (content only; the metadata copy
does not affect snapshots).  If `dst` is an existing directory the copy
goes to `dst/basename(src)`, as `shutil` does. -/
def copy2 (source_fs fs : FS) (src dst : Path) : Except FsErr FS :=
  match lookupFS source_fs src with
  | none => .error .notFound
  | some (.file _ false) => .error .cantRead
  | some .dir => .error .isADir
  | some .fifo => .error .blocked
  | some .special => .error .cantRead
  | some (.file content true) =>
    let dst1 := match lookupFS fs dst with
      | some .dir => dst ++ [src.getLastD ""]
      | _ => dst
    match lookupFS fs dst1 with
    | some (.file _ _) => .ok (replaceFS fs dst1 (.file content true))
    | some .dir => .error .isADir
    | some .fifo => .error .blocked
    | some .special => .error .cantRead
    | none =>
      match dst1.dropLast with
      | [] => .ok (fs ++ [(dst1, .file content true)])
      | _ :: _ =>
        match lookupFS fs dst1.dropLast with
        | some .dir => .ok (fs ++ [(dst1, .file content true)])
        | some _ => .error .notADir
        | none => .error .notFound

/-- `copy_verify_file` (lines 88-99): copy, then compare the md5 of both
sides; the boolean is `hashes_equal` (the caller only logs it). -/
def copy_verify_file (source_fs fs : FS) (src dst : Path) : Except FsErr (FS × Bool) :=
  match copy2 source_fs fs src dst with
  | .error e => .error e
  | .ok fs2 => .ok (fs2, decide (get_md5 source_fs src = get_md5 fs2 dst))

/-- State threaded through the copy phase: the target tree, the `total`
counter of line 110, and the trace of paths the phase acted on (entered
the guarded block for). -/
structure CopySt where
  fs : FS
  total : Nat
  acted : List Path
deriving DecidableEq

/-- The body of the `for` loop of `copy_objects` (lines 111-145) for a
single `(file, md5)` item.  Caught exceptions (`PermissionError`,
`FileNotFoundError` on a file copy, `FileExistsError` on a fifo) skip
the item; uncaught ones abort the phase. -/
def copy_object_step (source_fs : FS) (target_files : Snap) (st : CopySt)
    (item : Path × Option Md5Result) : Except FsErr CopySt :=
  if should_copy target_files item.1 item.2 then
    let acted := st.acted ++ [item.1]
    match lookupFS source_fs item.1 with
    | some .dir =>
      match mkdir_parents st.fs item.1 with
      | .ok fs2 => .ok ⟨fs2, st.total + 1, acted⟩
      | .error e => .error e
    | some .fifo =>
      match mkfifo st.fs item.1 with
      | .ok fs2 => .ok ⟨fs2, st.total + 1, acted⟩
      | .error .fileEx => .ok ⟨st.fs, st.total, acted⟩
      | .error e => .error e
    | _ =>
      match copy_verify_file source_fs st.fs item.1 item.1 with
      | .ok (fs2, _) => .ok ⟨fs2, st.total + 1, acted⟩
      | .error .notFound => .ok ⟨st.fs, st.total, acted⟩
      | .error .cantRead => .ok ⟨st.fs, st.total, acted⟩
      | .error e => .error e
  else
    .ok st

def copy_objects_go (source_fs : FS) (target_files : Snap) :
    List (Path × Option Md5Result) → CopySt → Except FsErr CopySt
  | [], st => .ok st
  | item :: rest, st =>
    match copy_object_step source_fs target_files st item with
    | .ok st2 => copy_objects_go source_fs target_files rest st2
    | .error e => .error e

/-- `copy_objects` (lines 101-147). -/
def copy_objects (source_files target_files : Snap) (source_fs target_fs : FS) :
    Except FsErr CopySt :=
  copy_objects_go source_fs target_files source_files ⟨target_fs, 0, []⟩

/-- `pathlib.Path(target_file).unlink()`: remove the single object. -/
def removeFS (fs : FS) (p : Path) : FS :=
  fs.filter fun pe => decide (pe.1 ≠ p)

/-- Whether the directory at `p` has an entry directly inside it
(`rmdir` fails exactly then). -/
def has_children (fs : FS) (p : Path) : Bool :=
  fs.any fun pe => decide (pe.1.dropLast = p ∧ pe.1 ≠ p)

/-- State of the first sweep of `remove_objects`: the tree, the `total`
counter, the unlinked paths so far, and the deferred `dirs_to_remove`
list of line 158. -/
structure RemoveSt where
  fs : FS
  total : Nat
  removed : List Path
  dirs_to_remove : List Path
deriving DecidableEq

/-- First sweep of `remove_objects` (lines 161-174): walk the target
snapshot's keys; an orphan that is currently a directory is deferred,
any other orphan is unlinked (`FileNotFoundError` is caught and
skipped).  This sweep raises nothing. -/
def remove_sweep1 (source_files : Snap) : List Path → RemoveSt → RemoveSt
  | [], st => st
  | file :: rest, st =>
    if file ∈ snapKeys source_files then
      remove_sweep1 source_files rest st
    else
      match lookupFS st.fs file with
      | some .dir =>
        remove_sweep1 source_files rest
          ⟨st.fs, st.total, st.removed, st.dirs_to_remove ++ [file]⟩
      | some _ =>
        remove_sweep1 source_files rest
          ⟨removeFS st.fs file, st.total + 1, st.removed ++ [file], st.dirs_to_remove⟩
      | none => remove_sweep1 source_files rest st

/-- Second sweep of `remove_objects` (lines 176-184): `rmdir` each
deferred directory in order.  `FileNotFoundError` is caught; the
`OSError` raised for a non-empty directory has no handler and
propagates, aborting the phase. -/
def remove_sweep2 : List Path → FS × Nat × List Path → Except FsErr (FS × Nat × List Path)
  | [], st => .ok st
  | p :: rest, (fs, total, removed) =>
    match lookupFS fs p with
    | none => remove_sweep2 rest (fs, total, removed)
    | some _ =>
      if has_children fs p then .error .notEmpty
      else remove_sweep2 rest (removeFS fs p, total + 1, removed ++ [p])

/-- Result of `remove_objects`: the tree, the `total` counter, the paths
unlinked in the first sweep, and the directories removed in the second. -/
structure RemoveResult where
  fs : FS
  total : Nat
  removed : List Path
  removed_dirs : List Path
deriving DecidableEq

/-- `remove_objects` (lines 149-186). -/
def remove_objects (source_files target_files : Snap) (target_fs : FS) :
    Except FsErr RemoveResult :=
  let st := remove_sweep1 source_files (snapKeys target_files) ⟨target_fs, 0, [], []⟩
  match remove_sweep2 st.dirs_to_remove (st.fs, st.total, []) with
  | .ok (fs2, total2, rdirs) => .ok ⟨fs2, total2, st.removed, rdirs⟩
  | .error e => .error e

/-- Result of one reconciliation pass: the new target tree and the two
per-phase counters logged at lines 147 and 186. -/
structure PassResult where
  fs : FS
  copied : Nat
  removed : Nat
deriving DecidableEq

/-- One tick of `do_sync_dirs` (lines 208-228) without the re-arming:
snapshot both sides, run the copy phase, then the remove phase. -/
def sync_pass (source_fs target_fs : FS) : Except FsErr PassResult :=
  let source_files := get_files_in_path source_fs
  let target_files := get_files_in_path target_fs
  match copy_objects source_files target_files source_fs target_fs with
  | .error e => .error e
  | .ok cst =>
    match remove_objects source_files target_files cst.fs with
    | .error e => .error e
    | .ok rst => .ok ⟨rst.fs, cst.total, rst.total⟩

/-- An event in the `sched.scheduler` queue. -/
structure SchedEvent where
  delay : Nat
  priority : Nat
deriving DecidableEq

/-- `do_sync_dirs` (lines 208-234): one pass, then `schedule.enter` of
itself -- the function always pushes a follow-up event before
returning. -/
def do_sync_dirs (source_fs target_fs : FS) (queue : List SchedEvent) (interval : Nat) :
    Except FsErr (FS × Nat × Nat × List SchedEvent) :=
  match sync_pass source_fs target_fs with
  | .error e => .error e
  | .ok r => .ok (r.fs, r.copied, r.removed, queue ++ [⟨interval, 1⟩])

/-- Observable outcome of a `main` run: process exit code, number of sync
passes started, number of scheduled events never executed, number of
critical-severity log lines, and the final target tree (`none` when the
run aborted mid-pass and the tree is not tracked). -/
structure MainResult where
  exitCode : Nat
  passes : Nat
  pending : Nat
  criticalLogs : Nat
  target : Option FS
deriving DecidableEq

/-- `schedule.run()` (line 273): pop and execute events until the queue
empties or the run is interrupted (`fuel` reaching 0 models the
keyboard interrupt during the inter-tick wait: caught, clean zero
status). -/
def sched_run (source_fs : FS) (interval : Nat) :
    Nat → FS → List SchedEvent → Nat → MainResult
  | 0, tfs, queue, passes => ⟨0, passes, queue.length, 0, some tfs⟩
  | _ + 1, tfs, [], passes => ⟨0, passes, 0, 0, some tfs⟩
  | fuel + 1, tfs, _ :: rest, passes =>
    match do_sync_dirs source_fs tfs rest interval with
    | .error _ => ⟨1, passes + 1, rest.length, 0, none⟩
    | .ok (tfs2, _, _, queue2) => sched_run source_fs interval fuel tfs2 queue2 (passes + 1)

/-- `main` (lines 236-276): root validation (lines 261-264: a missing
root logs one critical line and exits with status 1 before any sync),
then the first `do_sync_dirs` call, then `schedule.run()` unless
oneshot mode is on (lines 268-273). -/
def main_model (source target : Option FS) (oneshot : Bool) (interval fuel : Nat) :
    MainResult :=
  match source, target with
  | some sfs, some tfs =>
    (match do_sync_dirs sfs tfs [] interval with
     | .error _ => ⟨1, 1, 0, 0, none⟩
     | .ok (tfs2, _, _, queue) =>
       if oneshot then ⟨0, 1, queue.length, 0, some tfs2⟩
       else sched_run sfs interval fuel tfs2 queue 1)
  | _, _ => ⟨1, 0, 0, 1, target⟩

/-- A `pathlib.PurePath`: an optional anchor (absolute vs relative) and
the component list.  `relative_to` and `joinpath` are purely lexical on
these fields. -/
structure PurePath where
  anchor : Bool
  parts : List String
deriving DecidableEq

/-- `PurePath(abspath).relative_to(rootpath)` (line 61): strips the root
prefix, or raises `ValueError` (modelled as `none`) when the path does
not lie under the root. -/
def relative_to (abspath rootpath : PurePath) : Option PurePath :=
  if rootpath.anchor = abspath.anchor ∧ rootpath.parts <+: abspath.parts then
    some ⟨false, abspath.parts.drop rootpath.parts.length⟩
  else none

/-- `get_relative_path` (lines 60-61). -/
def get_relative_path (rootpath abspath : PurePath) : Option PurePath :=
  relative_to abspath rootpath

/-- `PurePath(rootpath).joinpath(relpath)` (lines 63-64): an anchored
(absolute) operand replaces the root, otherwise the components are
concatenated. -/
def get_absolute_path (rootpath relpath : PurePath) : PurePath :=
  if relpath.anchor then relpath else ⟨rootpath.anchor, rootpath.parts ++ relpath.parts⟩

/-! ### Basic lemmas about the chunked read -/

theorem read_chunks_go_join (fuel : Nat) :
    ∀ bytes : List Byte, bytes.length ≤ fuel →
      (read_chunks_go fuel bytes).foldl md5_update [] = bytes := by
  have hfold : ∀ (l : List (List Byte)) (acc : List Byte),
      l.foldl md5_update acc = acc ++ l.flatten := by
    intro l
    induction l with
    | nil => intro acc; simp
    | cons x xs ih => intro acc; simp [md5_update, ih, List.append_assoc]
  induction fuel with
  | zero =>
    intro bytes h
    cases bytes with
    | nil => rfl
    | cons b rest => simp at h
  | succ f ih =>
    intro bytes h
    cases bytes with
    | nil => rfl
    | cons b rest =>
      have hlen : ((b :: rest).drop 4096).length ≤ f := by
        simp only [List.length_drop, List.length_cons]
        simp only [List.length_cons] at h
        omega
      have h2 := ih ((b :: rest).drop 4096) hlen
      rw [hfold] at h2 ⊢
      simp only [List.nil_append] at h2 ⊢
      simp only [read_chunks_go, List.flatten_cons]
      rw [h2, List.take_append_drop]

theorem stream_bytes_eq (content : List Byte) : stream_bytes content = content :=
  read_chunks_go_join content.length content le_rfl

/-! ### Claim theorems: fingerprinting -/

/-- C7: on a path that does not exist, and more generally whenever the
file cannot be opened or read (`readable = false`), `get_md5` returns
the sentinel 0.  The function is total (`FS → Path → Md5Result`), so no
exception can propagate to its caller. -/
theorem get_md5_failure_returns_sentinel :
    (∀ (fs : FS) (p : Path), lookupFS fs p = none → get_md5 fs p = .zero) ∧
    (∀ (fs : FS) (p : Path) (c : List Byte),
      lookupFS fs p = some (.file c false) → get_md5 fs p = .zero) := by
  constructor
  · intro fs p h
    simp [get_md5, h]
  · intro fs p c h
    simp [get_md5, h]

theorem get_md5_failure_returns_sentinel_witness :
    get_md5 [] ["missing"] = .zero ∧
    get_md5 [(["u"], Entry.file [3] false)] ["u"] = .zero :=
  ⟨get_md5_failure_returns_sentinel.1 [] ["missing"] (by decide),
   get_md5_failure_returns_sentinel.2 [(["u"], Entry.file [3] false)] ["u"] [3] (by decide)⟩

/-- C8: the fingerprint is a deterministic function of the content: the
byte sequence fed to the digest by the 4096-byte chunked read equals
the whole content, so the streamed digest equals the digest of the
content taken at once, and two readable files with byte-identical
content receive equal fingerprints. -/
theorem get_md5_deterministic_chunked :
    (∀ content : List Byte, stream_bytes content = content) ∧
    (∀ (fs₁ : FS) (p₁ : Path) (fs₂ : FS) (p₂ : Path) (c : List Byte),
      lookupFS fs₁ p₁ = some (.file c true) →
      lookupFS fs₂ p₂ = some (.file c true) →
      get_md5 fs₁ p₁ = get_md5 fs₂ p₂ ∧ get_md5 fs₁ p₁ = .hash (hexdigest c)) := by
  refine ⟨stream_bytes_eq, ?_⟩
  intro fs₁ p₁ fs₂ p₂ c h₁ h₂
  simp [get_md5, h₁, h₂, stream_bytes_eq]

theorem get_md5_deterministic_chunked_witness :
    get_md5 [(["x"], Entry.file [1, 2] true)] ["x"]
      = get_md5 [(["y"], Entry.file [1, 2] true)] ["y"] :=
  (get_md5_deterministic_chunked.2 [(["x"], Entry.file [1, 2] true)] ["x"]
    [(["y"], Entry.file [1, 2] true)] ["y"] [1, 2] (by decide) (by decide)).1

/-- C3 counterexample: two distinct unreadable files receive the same
sentinel (the int 0), hence their fingerprints compare equal -- and the
copy phase then treats an unreadable source file as already satisfied
by an unreadable target file, performing no copy attempt (`acted = []`
and `total = 0`). -/
theorem unreadable_files_equal_cex :
    get_md5 [(["a"], Entry.file [7] false)] ["a"]
      = get_md5 [(["a"], Entry.file [9] false)] ["a"] ∧
    copy_objects (get_files_in_path [(["a"], Entry.file [7] false)])
        (get_files_in_path [(["a"], Entry.file [9] false)])
        [(["a"], Entry.file [7] false)] [(["a"], Entry.file [9] false)]
      = .ok ⟨[(["a"], Entry.file [9] false)], 0, []⟩ := by decide

/-- C3 (amended): the sentinel 0 compares unequal to every real hash
string, but any two unreadable files receive the *same* sentinel, so
two unreadable files are judged to have identical content. -/
theorem unreadable_sentinel :
    (∀ s : String, (Md5Result.zero : Md5Result) ≠ .hash s) ∧
    (∀ (fs₁ : FS) (p₁ : Path) (c₁ : List Byte) (fs₂ : FS) (p₂ : Path) (c₂ : List Byte),
      lookupFS fs₁ p₁ = some (.file c₁ false) →
      lookupFS fs₂ p₂ = some (.file c₂ false) →
      get_md5 fs₁ p₁ = get_md5 fs₂ p₂) := by
  constructor
  · intro s h
    cases h
  · intro fs₁ p₁ c₁ fs₂ p₂ c₂ h₁ h₂
    simp [get_md5, h₁, h₂]

theorem unreadable_sentinel_witness :
    get_md5 [(["u"], Entry.file [7] false)] ["u"]
      = get_md5 [(["v"], Entry.file [9] false)] ["v"] :=
  unreadable_sentinel.2 [(["u"], Entry.file [7] false)] ["u"] [7]
    [(["v"], Entry.file [9] false)] ["v"] [9] (by decide) (by decide)

/-! ### Claim theorems: remove phase ordering bug (C2) -/

/-- C2: evaluation of the remove phase at the failing input.  The target
tree holds two orphaned nested directories `d` and `d/e`; the deferred
`dirs_to_remove` list keeps the scan order (parent first), so `rmdir d`
runs while `d/e` still exists and raises the directory-not-empty
`OSError`, which no handler catches: the phase aborts and `d` is never
removed, contrary to the documented intent of the two-sweep scheme. -/
theorem remove_nested_orphan_dirs_fails :
    remove_objects (get_files_in_path [])
        (get_files_in_path [(["d"], Entry.dir), (["d", "e"], Entry.dir)])
        [(["d"], Entry.dir), (["d", "e"], Entry.dir)]
      = .error .notEmpty ∧
    sync_pass [] [(["d"], Entry.dir), (["d", "e"], Entry.dir)] = .error .notEmpty := by
  decide

/-! ### Claim theorems: scheduler and startup -/

theorem sched_run_passes_le (source_fs : FS) (interval : Nat) :
    ∀ (fuel : Nat) (tfs : FS) (queue : List SchedEvent) (n : Nat),
      n ≤ (sched_run source_fs interval fuel tfs queue n).passes := by
  intro fuel
  induction fuel with
  | zero => intro tfs queue n; simp [sched_run]
  | succ f ih =>
    intro tfs queue n
    cases queue with
    | nil => simp [sched_run]
    | cons ev rest =>
      simp only [sched_run]
      cases h : do_sync_dirs source_fs tfs rest interval with
      | error e => simp
      | ok r =>
        obtain ⟨tfs2, c, rm, queue2⟩ := r
        exact le_trans (Nat.le_succ n) (ih tfs2 queue2 (n + 1))

/-- C9: if either root is missing, `main` logs one critical line and
exits with status 1 before any sync pass, leaving the target tree
untouched; when both roots exist, the first sync pass proceeds. -/
theorem startup_validation :
    (∀ (source target : Option FS) (oneshot : Bool) (interval fuel : Nat),
      source = none ∨ target = none →
      main_model source target oneshot interval fuel = ⟨1, 0, 0, 1, target⟩) ∧
    (∀ (sfs tfs : FS) (oneshot : Bool) (interval fuel : Nat),
      1 ≤ (main_model (some sfs) (some tfs) oneshot interval fuel).passes) := by
  constructor
  · intro source target oneshot interval fuel h
    match source, target with
    | none, none => rfl
    | none, some tfs => rfl
    | some sfs, none => rfl
    | some sfs, some tfs =>
      rcases h with h | h <;> exact absurd h (by simp)
  · intro sfs tfs oneshot interval fuel
    simp only [main_model]
    cases h : do_sync_dirs sfs tfs [] interval with
    | error e => simp
    | ok r =>
      obtain ⟨tfs2, c, rm, queue⟩ := r
      cases oneshot with
      | true => simp
      | false =>
        simpa using sched_run_passes_le sfs interval fuel tfs2 queue 1

theorem startup_validation_witness :
    main_model none (some ([] : FS)) false 600 3 = ⟨1, 0, 0, 1, some []⟩ ∧
    1 ≤ (main_model (some ([] : FS)) (some ([] : FS)) true 600 3).passes :=
  ⟨startup_validation.1 none (some []) false 600 3 (Or.inl rfl),
   startup_validation.2 [] [] true 600 3⟩

/-- C6 counterexample: in oneshot mode, after the single pass completes
there *is* a pending sync event: `do_sync_dirs` unconditionally calls
`schedule.enter` before returning, and oneshot mode merely skips
`schedule.run()`. -/
theorem oneshot_pending_event_cex :
    (main_model (some []) (some []) true 600 0).pending ≠ 0 := by decide

/-- C6 (amended): oneshot mode starts exactly one sync pass and executes
no scheduled event; the pass itself, however, enqueues one follow-up
event which remains pending (never executed) when `main` returns with
status 0. -/
theorem oneshot_single_pass (sfs tfs : FS) (interval fuel : Nat)
    (r : FS × Nat × Nat × List SchedEvent)
    (hok : do_sync_dirs sfs tfs [] interval = .ok r) :
    main_model (some sfs) (some tfs) true interval fuel = ⟨0, 1, 1, 0, some r.1⟩ := by
  have hq : r.2.2.2 = [⟨interval, 1⟩] := by
    unfold do_sync_dirs at hok
    cases h : sync_pass sfs tfs with
    | error e => rw [h] at hok; cases hok
    | ok pr =>
      rw [h] at hok
      cases hok
      rfl
  simp only [main_model, hok]
  obtain ⟨tfs2, c, rm, queue⟩ := r
  simp only at hq
  simp [hq]

theorem oneshot_single_pass_witness :
    main_model (some ([] : FS)) (some ([] : FS)) true 600 7
      = ⟨0, 1, 1, 0, some ([] : FS)⟩ :=
  oneshot_single_pass [] [] 600 7 ([], 0, 0, [⟨600, 1⟩]) (by decide)

/-! ### Association-list and snapshot lemmas -/

theorem lookupFS_eq_none {fs : FS} {p : Path} :
    lookupFS fs p = none ↔ p ∉ keysOf fs := by
  induction fs with
  | nil => simp [lookupFS, keysOf]
  | cons pe rest ih =>
    obtain ⟨q, e⟩ := pe
    by_cases h : q = p
    · subst h
      simp only [lookupFS, if_pos rfl, keysOf, List.map_cons, List.mem_cons]
      constructor
      · intro hn
        exact Option.noConfusion hn
      · intro hn
        exact absurd (Or.inl trivial) hn
    · simp only [lookupFS, if_neg h, keysOf, List.map_cons, List.mem_cons]
      rw [ih]
      unfold keysOf
      constructor
      · intro hn hc
        rcases hc with hc | hc
        · exact h hc.symm
        · exact hn hc
      · intro hn
        exact fun hc => hn (Or.inr hc)

theorem lookupFS_mem {fs : FS} {p : Path} {e : Entry}
    (h : lookupFS fs p = some e) : (p, e) ∈ fs := by
  induction fs with
  | nil => cases h
  | cons pe rest ih =>
    obtain ⟨q, e'⟩ := pe
    by_cases hq : q = p
    · subst hq
      simp only [lookupFS, if_pos rfl] at h
      injection h with h
      subst h
      exact List.mem_cons_self _ _
    · simp only [lookupFS, if_neg hq] at h
      exact List.mem_cons_of_mem _ (ih h)

theorem lookupFS_of_mem_nodup {fs : FS} (hnd : (keysOf fs).Nodup)
    {p : Path} {e : Entry} (h : (p, e) ∈ fs) : lookupFS fs p = some e := by
  induction fs with
  | nil => cases h
  | cons pe rest ih =>
    obtain ⟨q, e'⟩ := pe
    simp only [keysOf, List.map_cons, List.nodup_cons] at hnd
    rcases List.mem_cons.1 h with h | h
    · injection h with h1 h2
      subst h1; subst h2
      simp [lookupFS]
    · have hne : q ≠ p := by
        intro hq
        subst hq
        exact hnd.1 (List.mem_map.2 ⟨(q, e), h, rfl⟩)
      simp only [lookupFS, if_neg hne]
      exact ih hnd.2 h

theorem mem_unique_of_nodup_keys {β : Type} {l : List (Path × β)}
    (hnd : (l.map Prod.fst).Nodup) {p : Path} {a b : β}
    (ha : (p, a) ∈ l) (hb : (p, b) ∈ l) : a = b := by
  induction l with
  | nil => cases ha
  | cons pe rest ih =>
    simp only [List.map_cons, List.nodup_cons] at hnd
    rcases List.mem_cons.1 ha with ha' | ha' <;> rcases List.mem_cons.1 hb with hb' | hb'
    · have h := ha'.trans hb'.symm
      exact congrArg Prod.snd h
    · exfalso
      apply hnd.1
      rw [← ha']
      exact List.mem_map.2 ⟨(p, b), hb', rfl⟩
    · exfalso
      apply hnd.1
      rw [← hb']
      exact List.mem_map.2 ⟨(p, a), ha', rfl⟩
    · exact ih hnd.2 ha' hb'

theorem snapLookup_mem_keys {s : Snap} {p : Path} {w : Option Md5Result}
    (h : snapLookup s p = some w) : p ∈ snapKeys s := by
  induction s with
  | nil => cases h
  | cons qv rest ih =>
    obtain ⟨q, v⟩ := qv
    by_cases hq : q = p
    · subst hq
      exact List.mem_cons_self _ _
    · simp only [snapLookup, if_neg hq] at h
      exact List.mem_cons_of_mem _ (ih h)

theorem snapLookup_of_mem_nodup {s : Snap} (hnd : (snapKeys s).Nodup)
    {p : Path} {v : Option Md5Result} (h : (p, v) ∈ s) : snapLookup s p = some v := by
  induction s with
  | nil => cases h
  | cons qv rest ih =>
    obtain ⟨q, v'⟩ := qv
    simp only [snapKeys, List.map_cons, List.nodup_cons] at hnd
    rcases List.mem_cons.1 h with h' | h'
    · injection h' with h1 h2
      subst h1; subst h2
      simp [snapLookup]
    · have hne : q ≠ p := by
        intro hq
        subst hq
        exact hnd.1 (List.mem_map.2 ⟨(q, v), h', rfl⟩)
      simp only [snapLookup, if_neg hne]
      exact ih hnd.2 h'

theorem keys_filterMap_sublist {β : Type} (g : (Path × Entry) → Option (Path × β))
    (hg : ∀ pe x, g pe = some x → x.1 = pe.1) :
    ∀ l : FS, ((l.filterMap g).map Prod.fst).Sublist (l.map Prod.fst) := by
  intro l
  induction l with
  | nil => simp
  | cons pe rest ih =>
    rw [List.filterMap_cons]
    cases hgp : g pe with
    | none =>
      simp only [List.map_cons]
      exact ih.cons _
    | some x =>
      simp only [List.map_cons]
      rw [hg pe x hgp]
      exact ih.cons₂ _

theorem snapKeys_sublist (fs : FS) :
    (snapKeys (get_files_in_path fs)).Sublist (keysOf fs) := by
  apply keys_filterMap_sublist
  intro pe x h
  obtain ⟨q, e⟩ := pe
  cases e with
  | file c r =>
    injection h with h
    rw [← h]
  | dir =>
    injection h with h
    rw [← h]
  | fifo =>
    injection h with h
    rw [← h]
  | special => cases h

theorem snapKeys_nodup {fs : FS} (hnd : (keysOf fs).Nodup) :
    (snapKeys (get_files_in_path fs)).Nodup :=
  (snapKeys_sublist fs).nodup hnd

theorem mem_snapshot_of_mem {fs : FS} (hnd : (keysOf fs).Nodup)
    {p : Path} {e : Entry} {v : Option Md5Result}
    (hm : (p, e) ∈ fs) (hv : entry_val e = some v) :
    (p, v) ∈ get_files_in_path fs := by
  apply List.mem_filterMap.2
  refine ⟨(p, e), hm, ?_⟩
  have hl := lookupFS_of_mem_nodup hnd hm
  cases e with
  | file c r =>
    cases r <;>
      · simp only [entry_val] at hv
        injection hv with hv
        subst hv
        simp [get_md5, hl]
  | dir =>
    simp only [entry_val] at hv
    injection hv with hv
    subst hv
    rfl
  | fifo =>
    simp only [entry_val] at hv
    injection hv with hv
    subst hv
    rfl
  | special => cases hv

theorem mem_snapshot_elim {fs : FS} (hnd : (keysOf fs).Nodup)
    {p : Path} {v : Option Md5Result}
    (h : (p, v) ∈ get_files_in_path fs) :
    ∃ e, (p, e) ∈ fs ∧ entry_val e = some v := by
  rcases List.mem_filterMap.1 h with ⟨⟨q, e⟩, hmem, heq⟩
  cases e with
  | file c r =>
    simp only at heq
    injection heq with heq
    injection heq with h1 h2
    subst h1
    refine ⟨.file c r, hmem, ?_⟩
    have hl := lookupFS_of_mem_nodup hnd hmem
    cases r <;> simp_all [get_md5, entry_val]
  | dir =>
    simp only at heq
    injection heq with heq
    injection heq with h1 h2
    subst h1
    exact ⟨.dir, hmem, by rw [← h2]; rfl⟩
  | fifo =>
    simp only at heq
    injection heq with heq
    injection heq with h1 h2
    subst h1
    exact ⟨.fifo, hmem, by rw [← h2]; rfl⟩
  | special => cases heq

theorem entry_val_file {fs : FS} (hnd : (keysOf fs).Nodup)
    {p : Path} {c : List Byte} {r : Bool} (hm : (p, .file c r) ∈ fs) :
    entry_val (.file c r) = some (some (get_md5 fs p)) := by
  have hl := lookupFS_of_mem_nodup hnd hm
  cases r <;> simp [entry_val, get_md5, hl]

/-! ### The copy phase acts exactly on the items passing the guard -/

theorem copy_object_step_acted {sfs : FS} {T : Snap} {st st2 : CopySt}
    {it : Path × Option Md5Result}
    (h : copy_object_step sfs T st it = .ok st2) :
    st2.acted = st.acted ++ (if should_copy T it.1 it.2 then [it.1] else []) := by
  unfold copy_object_step at h
  by_cases hd : should_copy T it.1 it.2
  · rw [if_pos hd] at h
    rw [if_pos hd]
    split at h
    · split at h
      · cases h; rfl
      · exact Except.noConfusion h
    · split at h
      · cases h; rfl
      · cases h; rfl
      · exact Except.noConfusion h
    · split at h
      · cases h; rfl
      · cases h; rfl
      · cases h; rfl
      · exact Except.noConfusion h
  · rw [if_neg hd] at h
    rw [if_neg hd]
    cases h
    simp

theorem copy_objects_go_acted {sfs : FS} {T : Snap} :
    ∀ (l : Snap) (st st2 : CopySt), copy_objects_go sfs T l st = .ok st2 →
      st2.acted = st.acted ++
        ((l.filter fun it => decide (should_copy T it.1 it.2)).map Prod.fst) := by
  intro l
  induction l with
  | nil =>
    intro st st2 h
    cases h
    simp
  | cons it rest ih =>
    intro st st2 h
    unfold copy_objects_go at h
    cases hstep : copy_object_step sfs T st it with
    | error e =>
      rw [hstep] at h
      exact Except.noConfusion h
    | ok st1 =>
      rw [hstep] at h
      have h1 := copy_object_step_acted hstep
      have h2 := ih st1 st2 h
      rw [h2, h1]
      by_cases hd : should_copy T it.1 it.2
      · simp [List.filter_cons, hd, List.append_assoc]
      · simp [List.filter_cons, hd]

theorem copy_objects_acted {S T : Snap} {sfs tfs : FS} {cst : CopySt}
    (h : copy_objects S T sfs tfs = .ok cst) :
    cst.acted = (S.filter fun it => decide (should_copy T it.1 it.2)).map Prod.fst := by
  have h2 := copy_objects_go_acted S ⟨tfs, 0, []⟩ cst h
  simpa using h2

theorem mem_acted_iff {S T : Snap} {sfs tfs : FS} {cst : CopySt}
    (h : copy_objects S T sfs tfs = .ok cst) {p : Path} :
    p ∈ cst.acted ↔ ∃ v, (p, v) ∈ S ∧ should_copy T p v := by
  rw [copy_objects_acted h]
  simp only [List.mem_map, List.mem_filter]
  constructor
  · rintro ⟨⟨q, v⟩, ⟨hmem, hsc⟩, rfl⟩
    exact ⟨v, hmem, of_decide_eq_true hsc⟩
  · rintro ⟨v, hmem, hsc⟩
    exact ⟨(p, v), ⟨hmem, decide_eq_true hsc⟩, rfl⟩

/-! ### Claim theorems: copy decision rule (C1) and content-based skip (C5) -/

/-- C1: when the copy phase runs to completion, it acts on a source
snapshot entry `(p, kind, fingerprint)` exactly when `p` is absent from
the target snapshot's keys, or the entry is a file whose fingerprint
appears nowhere in the target snapshot's value set; every other entry
is skipped. -/
theorem copy_phase_acts_iff
    (fs_s fs_t : FS) (p : Path) (e : Entry) (cst : CopySt)
    (hnd : (keysOf fs_s).Nodup)
    (hmem : (p, e) ∈ fs_s)
    (hsp : e ≠ .special)
    (hok : copy_objects (get_files_in_path fs_s) (get_files_in_path fs_t) fs_s fs_t
      = .ok cst) :
    p ∈ cst.acted ↔
      (p ∉ snapKeys (get_files_in_path fs_t) ∨
        (e.kind = .file ∧
          some (get_md5 fs_s p) ∉ snapValues (get_files_in_path fs_t))) := by
  have hSnd : (snapKeys (get_files_in_path fs_s)).Nodup := snapKeys_nodup hnd
  rw [mem_acted_iff hok]
  cases e with
  | special => exact absurd rfl hsp
  | file c r =>
    have hv := entry_val_file hnd hmem
    have hs : (p, some (get_md5 fs_s p)) ∈ get_files_in_path fs_s :=
      mem_snapshot_of_mem hnd hmem hv
    constructor
    · rintro ⟨v, hvmem, hsc⟩
      have : v = some (get_md5 fs_s p) := mem_unique_of_nodup_keys hSnd hvmem hs
      subst this
      rcases hsc with hsc | hsc
      · exact Or.inl hsc
      · exact Or.inr ⟨rfl, hsc.2⟩
    · rintro (hsc | hsc)
      · exact ⟨some (get_md5 fs_s p), hs, Or.inl hsc⟩
      · exact ⟨some (get_md5 fs_s p), hs, Or.inr ⟨by simp, hsc.2⟩⟩
  | dir =>
    have hs : (p, none) ∈ get_files_in_path fs_s :=
      mem_snapshot_of_mem hnd hmem rfl
    constructor
    · rintro ⟨v, hvmem, hsc⟩
      have : v = none := mem_unique_of_nodup_keys hSnd hvmem hs
      subst this
      rcases hsc with hsc | hsc
      · exact Or.inl hsc
      · exact absurd rfl hsc.1
    · rintro (hsc | hsc)
      · exact ⟨none, hs, Or.inl hsc⟩
      · cases hsc.1
  | fifo =>
    have hs : (p, none) ∈ get_files_in_path fs_s :=
      mem_snapshot_of_mem hnd hmem rfl
    constructor
    · rintro ⟨v, hvmem, hsc⟩
      have : v = none := mem_unique_of_nodup_keys hSnd hvmem hs
      subst this
      rcases hsc with hsc | hsc
      · exact Or.inl hsc
      · exact absurd rfl hsc.1
    · rintro (hsc | hsc)
      · exact ⟨none, hs, Or.inl hsc⟩
      · cases hsc.1

theorem copy_phase_acts_iff_witness :
    ["a"] ∈ (⟨[(["a"], Entry.file [1] true)], 1, [["a"]]⟩ : CopySt).acted ↔
      (["a"] ∉ snapKeys (get_files_in_path ([] : FS)) ∨
        ((Entry.file [1] true).kind = .file ∧
          some (get_md5 [(["a"], Entry.file [1] true)] ["a"])
            ∉ snapValues (get_files_in_path ([] : FS)))) :=
  copy_phase_acts_iff [(["a"], Entry.file [1] true)] [] ["a"] (Entry.file [1] true)
    ⟨[(["a"], Entry.file [1] true)], 1, [["a"]]⟩
    (by decide) (by decide) (by decide) (by decide)

/-- C5: a source file whose path is present in the target snapshot and
whose fingerprint appears somewhere in the target snapshot's value set
is not copied, even when the target's entry at that same path carries a
different fingerprint. -/
theorem content_match_skips_copy
    (fs_s fs_t : FS) (p : Path) (m : Md5Result) (w : Option Md5Result) (cst : CopySt)
    (hnd : (keysOf fs_s).Nodup)
    (hmem : (p, some m) ∈ get_files_in_path fs_s)
    (hkey : snapLookup (get_files_in_path fs_t) p = some w)
    (_hdiff : w ≠ some m)
    (hval : some m ∈ snapValues (get_files_in_path fs_t))
    (hok : copy_objects (get_files_in_path fs_s) (get_files_in_path fs_t) fs_s fs_t
      = .ok cst) :
    p ∉ cst.acted := by
  have hSnd : (snapKeys (get_files_in_path fs_s)).Nodup := snapKeys_nodup hnd
  rw [mem_acted_iff hok]
  rintro ⟨v, hvmem, hsc⟩
  have hvm : v = some m := mem_unique_of_nodup_keys hSnd hvmem hmem
  subst hvm
  rcases hsc with hsc | hsc
  · exact hsc (snapLookup_mem_keys hkey)
  · exact hsc.2 hval

theorem content_match_skips_copy_witness :
    ["a"] ∉ (⟨[(["a"], Entry.file [0] true), (["b"], Entry.file [1] true)], 0, []⟩
      : CopySt).acted :=
  content_match_skips_copy
    [(["a"], Entry.file [1] true)]
    [(["a"], Entry.file [0] true), (["b"], Entry.file [1] true)]
    ["a"] (.hash "2") (some (.hash "1"))
    ⟨[(["a"], Entry.file [0] true), (["b"], Entry.file [1] true)], 0, []⟩
    (by decide) (by decide) (by decide) (by decide) (by decide) (by decide)

/-! ### Claim theorems: path round trips (C10) -/

/-- C10: `get_relative_path` undoes `get_absolute_path` for every root
and every relative path, and `get_absolute_path` undoes
`get_relative_path` for every absolute path lying under the root (the
latter condition is exactly `get_relative_path` succeeding). -/
theorem path_round_trip :
    (∀ r p : PurePath, p.anchor = false →
      get_relative_path r (get_absolute_path r p) = some p) ∧
    (∀ r a rel : PurePath, get_relative_path r a = some rel →
      get_absolute_path r rel = a) := by
  constructor
  · intro r p hp
    obtain ⟨pa, pparts⟩ := p
    simp only at hp
    subst hp
    simp only [get_absolute_path, get_relative_path, relative_to, Bool.false_eq_true,
      if_false, List.prefix_append, and_true, if_pos rfl, List.drop_left]
    simp
  · intro r a rel h
    unfold get_relative_path relative_to at h
    by_cases hc : r.anchor = a.anchor ∧ r.parts <+: a.parts
    · rw [if_pos hc] at h
      obtain ⟨hanchor, t, ht⟩ := hc
      injection h with h
      subst h
      simp only [get_absolute_path, Bool.false_eq_true, if_false]
      obtain ⟨aa, aparts⟩ := a
      simp only at hanchor ht ⊢
      subst ht
      rw [List.drop_left]
      rw [hanchor]
    · rw [if_neg hc] at h
      cases h

theorem path_round_trip_witness :
    get_relative_path ⟨true, ["t", "r"]⟩
        (get_absolute_path ⟨true, ["t", "r"]⟩ ⟨false, ["long", "p"]⟩)
      = some ⟨false, ["long", "p"]⟩ ∧
    get_absolute_path ⟨true, ["t", "r"]⟩ ⟨false, ["long", "p"]⟩
      = ⟨true, ["t", "r", "long", "p"]⟩ :=
  ⟨path_round_trip.1 ⟨true, ["t", "r"]⟩ ⟨false, ["long", "p"]⟩ rfl,
   path_round_trip.2 ⟨true, ["t", "r"]⟩ ⟨true, ["t", "r", "long", "p"]⟩
     ⟨false, ["long", "p"]⟩ (by decide)⟩

/-! ### Effect lemmas for the modelled filesystem operations -/

theorem lookupFS_append (fs l2 : FS) (p : Path) :
    lookupFS (fs ++ l2) p =
      (match lookupFS fs p with
       | some e => some e
       | none => lookupFS l2 p) := by
  induction fs with
  | nil => rfl
  | cons pe rest ih =>
    obtain ⟨q, e⟩ := pe
    by_cases h : q = p
    · subst h
      simp [lookupFS]
    · simp [lookupFS, if_neg h, ih]

theorem lookupFS_append_self {fs : FS} {p : Path} (h : lookupFS fs p = none) (e : Entry) :
    lookupFS (fs ++ [(p, e)]) p = some e := by
  rw [lookupFS_append, h]
  simp [lookupFS]

theorem lookupFS_append_ne {fs : FS} {p q : Path} (h : p ≠ q) (e : Entry) :
    lookupFS (fs ++ [(p, e)]) q = lookupFS fs q := by
  rw [lookupFS_append]
  cases hf : lookupFS fs q with
  | some e' => rfl
  | none => simp [lookupFS, h]

theorem keysOf_append (fs : FS) (p : Path) (e : Entry) :
    keysOf (fs ++ [(p, e)]) = keysOf fs ++ [p] := by
  simp [keysOf]

theorem replaceFS_cons (q : Path) (e' : Entry) (rest : FS) (p : Path) (e : Entry) :
    replaceFS ((q, e') :: rest) p e
      = (if q = p then (p, e) else (q, e')) :: replaceFS rest p e := rfl

theorem lookupFS_replace_self {fs : FS} {p : Path} (h : p ∈ keysOf fs) (e : Entry) :
    lookupFS (replaceFS fs p e) p = some e := by
  induction fs with
  | nil => cases h
  | cons pe rest ih =>
    obtain ⟨q, e'⟩ := pe
    rw [replaceFS_cons]
    by_cases hq : q = p
    · rw [if_pos hq]
      simp [lookupFS]
    · rw [if_neg hq]
      simp only [lookupFS, if_neg hq]
      simp only [keysOf, List.map_cons, List.mem_cons] at h
      rcases h with h | h
      · exact absurd h.symm hq
      · exact ih h

theorem lookupFS_replace_ne (fs : FS) {p q : Path} (h : p ≠ q) (e : Entry) :
    lookupFS (replaceFS fs p e) q = lookupFS fs q := by
  induction fs with
  | nil => rfl
  | cons pe rest ih =>
    obtain ⟨q', e'⟩ := pe
    rw [replaceFS_cons]
    by_cases hq : q' = p
    · rw [if_pos hq]
      subst hq
      simp only [lookupFS, if_neg h]
      exact ih
    · rw [if_neg hq]
      by_cases hq2 : q' = q
      · simp only [lookupFS, if_pos hq2]
      · simp only [lookupFS, if_neg hq2]
        exact ih

theorem keysOf_replace (fs : FS) (p : Path) (e : Entry) :
    keysOf (replaceFS fs p e) = keysOf fs := by
  induction fs with
  | nil => rfl
  | cons pe rest ih =>
    obtain ⟨q, e'⟩ := pe
    rw [replaceFS_cons]
    by_cases hq : q = p
    · rw [if_pos hq]
      simp only [keysOf, List.map_cons] at ih ⊢
      rw [ih, hq]
    · rw [if_neg hq]
      simp only [keysOf, List.map_cons] at ih ⊢
      rw [ih]

theorem lookupFS_remove_self (fs : FS) (p : Path) :
    lookupFS (removeFS fs p) p = none := by
  induction fs with
  | nil => rfl
  | cons pe rest ih =>
    obtain ⟨q, e⟩ := pe
    by_cases hq : q = p
    · subst hq
      simpa [removeFS] using ih
    · simp only [removeFS, List.filter_cons] at ih ⊢
      rw [decide_eq_true (by exact hq)]
      simpa [lookupFS, if_neg hq] using ih

theorem lookupFS_remove_ne (fs : FS) {p q : Path} (h : p ≠ q) :
    lookupFS (removeFS fs p) q = lookupFS fs q := by
  induction fs with
  | nil => rfl
  | cons pe rest ih =>
    obtain ⟨q', e⟩ := pe
    simp only [removeFS, List.filter_cons]
    by_cases hq : q' = p
    · subst hq
      rw [decide_eq_false (by simp)]
      simp only [lookupFS, if_neg h]
      exact ih
    · rw [decide_eq_true (by exact hq)]
      by_cases hq2 : q' = q
      · simp [lookupFS, if_pos hq2]
      · simp only [lookupFS, if_neg hq2]
        exact ih

theorem keysOf_remove_sublist (fs : FS) (p : Path) :
    (keysOf (removeFS fs p)).Sublist (keysOf fs) := by
  unfold removeFS keysOf
  exact List.Sublist.map _ (List.filter_sublist fs)

/-! ### `mkdir_parents` and the prefix structure of a path -/

theorem nonNilPrefixes_mem {p q : Path} :
    q ∈ nonNilPrefixes p ↔ q ≠ [] ∧ q <+: p := by
  unfold nonNilPrefixes
  rw [List.mem_filter]
  rw [List.mem_inits]
  constructor
  · rintro ⟨h1, h2⟩
    refine ⟨?_, h1⟩
    intro hq
    subst hq
    simp at h2
  · rintro ⟨h1, h2⟩
    refine ⟨h2, ?_⟩
    simpa [List.isEmpty_iff] using h1

theorem nonNilPrefixes_concat (p : Path) (hp : p ≠ []) :
    nonNilPrefixes p = nonNilPrefixes p.dropLast ++ [p] := by
  conv_lhs => rw [← List.dropLast_append_getLast hp]
  unfold nonNilPrefixes
  rw [List.inits_append, List.filter_append]
  have h2 : ([p.getLast hp].inits.tail.map fun l => p.dropLast ++ l) = [p] := by
    simp [List.inits, List.dropLast_append_getLast hp]
  rw [h2]
  congr 1
  have hpe : p.isEmpty = false := by
    simpa [List.isEmpty_iff] using hp
  simp [hpe]
  exact hp

theorem foldlM_mkdir_all_dirs :
    ∀ (l : List Path) (fs : FS), (∀ q ∈ l, lookupFS fs q = some .dir) →
      l.foldlM mkdir_step fs = .ok fs := by
  intro l
  induction l with
  | nil => intro fs _; rfl
  | cons q rest ih =>
    intro fs h
    rw [List.foldlM_cons]
    have hq : mkdir_step fs q = .ok fs := by
      unfold mkdir_step
      rw [h q (List.mem_cons_self _ _)]
    rw [hq]
    show (Except.ok fs >>= fun b => rest.foldlM mkdir_step b) = .ok fs
    exact ih fs fun r hr => h r (List.mem_cons_of_mem _ hr)

theorem mkdir_parents_exists_dir {fs : FS} {p : Path}
    (hpre : ∀ q ∈ nonNilPrefixes p.dropLast, lookupFS fs q = some .dir)
    (hp : p ≠ []) (hdir : lookupFS fs p = some .dir) :
    mkdir_parents fs p = .ok fs := by
  unfold mkdir_parents
  rw [nonNilPrefixes_concat p hp]
  apply foldlM_mkdir_all_dirs
  intro q hq
  rcases List.mem_append.1 hq with hq | hq
  · exact hpre q hq
  · rcases List.mem_singleton.1 hq with rfl
    exact hdir

theorem mkdir_parents_create {fs : FS} {p : Path}
    (hpre : ∀ q ∈ nonNilPrefixes p.dropLast, lookupFS fs q = some .dir)
    (hp : p ≠ []) (hnone : lookupFS fs p = none) :
    mkdir_parents fs p = .ok (fs ++ [(p, .dir)]) := by
  unfold mkdir_parents
  rw [nonNilPrefixes_concat p hp]
  rw [List.foldlM_append]
  rw [foldlM_mkdir_all_dirs _ fs hpre]
  show [p].foldlM mkdir_step fs = _
  show mkdir_step fs p >>= _ = _
  unfold mkdir_step
  rw [hnone]
  rfl

/-! ### Well-formedness of a scanned tree -/

/-- Every entry's parent directory is in the tree. -/
def parentClosed (fs : FS) : Prop :=
  ∀ pe ∈ fs, pe.1.dropLast ≠ [] → (pe.1.dropLast, Entry.dir) ∈ fs

/-- A well-formed scan listing: unique nonempty keys, parent closure,
scan order putting a parent before any of its children (no element's
parent occurs strictly later in the listing), and no special entries. -/
def WF (fs : FS) : Prop :=
  (keysOf fs).Nodup ∧
  (∀ pe ∈ fs, pe.1 ≠ []) ∧
  parentClosed fs ∧
  (keysOf fs).Pairwise (fun a b => a.dropLast ≠ b) ∧
  (∀ pe ∈ fs, pe.2 ≠ Entry.special)

/-- Readability of an entry (false exactly for an unreadable file). -/
def readOk : Entry → Bool
  | .file _ false => false
  | _ => true

/-- Every file in the tree is readable. -/
def allReadable (fs : FS) : Prop := ∀ pe ∈ fs, readOk pe.2 = true

theorem prefix_dropLast_of_proper {q l : List String} (h : q <+: l) (hne : q ≠ l) :
    q <+: l.dropLast := by
  obtain ⟨t, ht⟩ := h
  by_cases ht2 : t = []
  · subst ht2
    rw [List.append_nil] at ht
    exact absurd ht hne
  · have hdec : t.dropLast ++ [t.getLast ht2] = t := List.dropLast_append_getLast ht2
    refine ⟨t.dropLast, ?_⟩
    conv_rhs => rw [← ht, ← hdec, ← List.append_assoc]
    simp

theorem ancestors_dir_aux {fs : FS} (hpc : parentClosed fs) :
    ∀ (n : Nat) (p : Path) (e : Entry), p.length ≤ n → (p, e) ∈ fs →
      ∀ q, q ≠ [] → q <+: p.dropLast → (q, Entry.dir) ∈ fs := by
  intro n
  induction n with
  | zero =>
    intro p e hn hm q hq hpre
    interval_cases h : p.length
    · have : p = [] := List.length_eq_zero.1 h
      subst this
      simp only [List.dropLast_nil] at hpre
      exact absurd (List.prefix_nil.1 hpre) hq
  | succ n ih =>
    intro p e hn hm q hq hpre
    by_cases hd : p.dropLast = []
    · rw [hd] at hpre
      exact absurd (List.prefix_nil.1 hpre) hq
    · have hpar : (p.dropLast, Entry.dir) ∈ fs := hpc (p, e) hm hd
      by_cases hqp : q = p.dropLast
      · subst hqp
        exact hpar
      · have hpre2 : q <+: p.dropLast.dropLast := prefix_dropLast_of_proper hpre hqp
        have hlen : p.dropLast.length ≤ n := by
          have := List.length_dropLast p
          have hppos : p ≠ [] := by
            intro hpnil
            rw [hpnil] at hd
            simp at hd
          have : 1 ≤ p.length := by
            cases p with
            | nil => exact absurd rfl hppos
            | cons a l => simp
          omega
        exact ih p.dropLast .dir hlen hpar q hq hpre2

theorem ancestors_dir {fs : FS} (hpc : parentClosed fs) {p : Path} {e : Entry}
    (hm : (p, e) ∈ fs) {q : Path} (hq : q ≠ []) (hpre : q <+: p.dropLast) :
    (q, Entry.dir) ∈ fs :=
  ancestors_dir_aux hpc p.length p e le_rfl hm q hq hpre

/-- In a parent-first key listing split as `ksPre ++ k :: ksRest`, every
nonempty ancestor of `k` that occurs in the listing occurs in `ksPre`
(processed strictly before `k`). -/
theorem chain_in_pre {ks ksPre ksRest : List Path} {k : Path}
    (hpw : ks.Pairwise fun a b => a.dropLast ≠ b)
    (hsplit : ks = ksPre ++ k :: ksRest)
    (hnil : ∀ x ∈ ks, x ≠ [])
    (hanc : ∀ q, q ≠ [] → q <+: k.dropLast → q ∈ ks) :
    ∀ q, q ≠ [] → q <+: k.dropLast → q ∈ ksPre := by
  have hkks : k ∈ ks := by
    rw [hsplit]
    exact List.mem_append.2 (Or.inr (List.mem_cons_self _ _))
  have hkne : k ≠ [] := hnil k hkks
  have hpw2 := hpw
  rw [hsplit] at hpw2
  rw [List.pairwise_append] at hpw2
  obtain ⟨hpwPre, hpwRest, hPairs⟩ := hpw2
  rw [List.pairwise_cons] at hpwRest
  have hkRest : ∀ b ∈ ksRest, k.dropLast ≠ b := hpwRest.1
  have resolve : ∀ q, q ∈ ks → q.length ≤ k.dropLast.length →
      (∃ x, (x ∈ ksPre ∨ x = k) ∧ x.dropLast = q) → q ∈ ksPre := by
    rintro q hqks hlen ⟨x, hx, hxd⟩
    rw [hsplit] at hqks
    rcases List.mem_append.1 hqks with hq | hq
    · exact hq
    · rcases List.mem_cons.1 hq with hqk | hq
      · exfalso
        rw [hqk] at hlen
        have h1 : k.dropLast.length < k.length := by
          have := List.length_dropLast k
          have : 1 ≤ k.length := by
            cases k with
            | nil => exact absurd rfl hkne
            | cons a l => simp
          omega
        omega
      · rcases hx with hx | hx
        · exact absurd hxd (hPairs x hx q (List.mem_cons_of_mem _ hq))
        · rw [hx] at hxd
          exact absurd hxd (hkRest q hq)
  have main : ∀ n q, q ≠ [] → q <+: k.dropLast → k.dropLast.length - q.length ≤ n →
      q ∈ ksPre := by
    intro n
    induction n with
    | zero =>
      intro q hq hpre hdiff
      have hle := hpre.length_le
      have heq : q = k.dropLast := hpre.eq_of_length (by omega)
      exact resolve q (hanc q hq hpre) hle ⟨k, Or.inr rfl, heq.symm⟩
    | succ n ih =>
      intro q hq hpre hdiff
      by_cases hqe : q = k.dropLast
      · exact resolve q (hanc q hq hpre) hpre.length_le ⟨k, Or.inr rfl, hqe.symm⟩
      · obtain ⟨t, ht⟩ := hpre
        have htne : t ≠ [] := by
          intro h
          rw [h, List.append_nil] at ht
          exact hqe ht
        have hq2pre : q ++ [t.head htne] <+: k.dropLast := by
          refine ⟨t.tail, ?_⟩
          rw [List.append_assoc, List.singleton_append, List.head_cons_tail]
          exact ht
        have hq2ne : q ++ [t.head htne] ≠ [] := by simp
        have hq2d : (q ++ [t.head htne]).dropLast = q := List.dropLast_concat
        have hq2len : (q ++ [t.head htne]).length = q.length + 1 := by simp
        have hq2diff : k.dropLast.length - (q ++ [t.head htne]).length ≤ n := by
          have hlt : q.length < k.dropLast.length := by
            have hle := List.IsPrefix.length_le ⟨t, ht⟩
            rcases Nat.lt_or_ge q.length k.dropLast.length with h | h
            · exact h
            · exact absurd (List.IsPrefix.eq_of_length ⟨t, ht⟩ (by omega)) hqe
          omega
        have hq2mem : q ++ [t.head htne] ∈ ksPre := ih _ hq2ne hq2pre hq2diff
        exact resolve q (hanc q hq ⟨t, ht⟩) (by have := List.IsPrefix.length_le ⟨t, ht⟩; omega)
          ⟨q ++ [t.head htne], Or.inl hq2mem, hq2d⟩
  intro q hq hpre
  exact main (k.dropLast.length - q.length) q hq hpre le_rfl

theorem kind_dir_inv {e : Entry} (h : e.kind = .dir) : e = .dir := by
  cases e <;> simp_all [Entry.kind]

theorem kind_fifo_inv {e : Entry} (h : e.kind = .fifo) : e = .fifo := by
  cases e <;> simp_all [Entry.kind]

theorem kind_file_inv {e : Entry} (h : e.kind = .file) : ∃ c r, e = .file c r := by
  cases e <;> simp_all [Entry.kind]

/-! ### Copy-phase invariant -/

/-- After the copy phase has processed a source item: the current target
tree holds an entry at the item's path contributing exactly the item's
snapshot value, of the same kind as the source entry there. -/
def srcMatch (fs_s cur : FS) (it : Path × Option Md5Result) : Prop :=
  ∃ es e', lookupFS fs_s it.1 = some es ∧ lookupFS cur it.1 = some e' ∧
    entry_val e' = some it.2 ∧ e'.kind = es.kind

/-- Invariant of the copy phase, `pre` being the processed prefix of the
source snapshot `S`: unique keys, agreement with the original target
tree away from source-snapshot paths, a source match at every processed
item, and unprocessed source paths either untouched or already created
as directories (by `mkdir(parents)` of a descendant) with the source
also a directory there. -/
def CopyInv (fs_s fs_t : FS) (S pre : Snap) (cur : FS) : Prop :=
  (keysOf cur).Nodup ∧
  (∀ q, q ∉ snapKeys S → lookupFS cur q = lookupFS fs_t q) ∧
  (∀ it ∈ pre, srcMatch fs_s cur it) ∧
  (∀ it ∈ S, it.1 ∉ snapKeys pre →
    lookupFS cur it.1 = lookupFS fs_t it.1 ∨
      (lookupFS fs_s it.1 = some .dir ∧ lookupFS cur it.1 = some .dir))

theorem mem_keys_exists {β : Type} {l : List (Path × β)} {p : Path}
    (h : p ∈ l.map Prod.fst) : ∃ b, (p, b) ∈ l := by
  rcases List.mem_map.1 h with ⟨⟨q, b⟩, hm, heq⟩
  exact ⟨b, heq ▸ hm⟩

theorem lookupFS_some_mem_keys {fs : FS} {p : Path} {e : Entry}
    (h : lookupFS fs p = some e) : p ∈ keysOf fs := by
  by_contra hc
  rw [lookupFS_eq_none.2 hc] at h
  cases h

theorem entry_val_none_cases {e : Entry} (h : entry_val e = some none) :
    e = .dir ∨ e = .fifo := by
  cases e with
  | file c r => cases r <;> simp [entry_val] at h
  | dir => exact Or.inl rfl
  | fifo => exact Or.inr rfl
  | special => cases h

/-! ### Evaluation lemmas for the step branches -/

theorem mkfifo_exists {fs : FS} {p : Path} {e : Entry} (h : lookupFS fs p = some e) :
    mkfifo fs p = .error .fileEx := by
  unfold mkfifo
  rw [h]

theorem mkfifo_create_root {fs : FS} {p : Path} (h : lookupFS fs p = none)
    (hroot : p.dropLast = []) :
    mkfifo fs p = .ok (fs ++ [(p, .fifo)]) := by
  unfold mkfifo
  rw [h, hroot]

theorem mkfifo_create_sub {fs : FS} {p : Path} {x : String} {xs : List String}
    (h : lookupFS fs p = none) (hdl : p.dropLast = x :: xs)
    (hpar : lookupFS fs p.dropLast = some .dir) :
    mkfifo fs p = .ok (fs ++ [(p, .fifo)]) := by
  unfold mkfifo
  rw [h, hpar, hdl]

theorem copy2_overwrite {sfs fs : FS} {p : Path} {c : List Byte} {c' : List Byte} {r' : Bool}
    (hsrc : lookupFS sfs p = some (.file c true))
    (hdst : lookupFS fs p = some (.file c' r')) :
    copy2 sfs fs p p = .ok (replaceFS fs p (.file c true)) := by
  unfold copy2
  rw [hsrc]
  simp only [hdst]

theorem copy2_create_root {sfs fs : FS} {p : Path} {c : List Byte}
    (hsrc : lookupFS sfs p = some (.file c true))
    (hdst : lookupFS fs p = none) (hroot : p.dropLast = []) :
    copy2 sfs fs p p = .ok (fs ++ [(p, .file c true)]) := by
  unfold copy2
  rw [hsrc]
  simp only [hdst, hroot]

theorem copy2_create_sub {sfs fs : FS} {p : Path} {c : List Byte} {x : String} {xs : List String}
    (hsrc : lookupFS sfs p = some (.file c true))
    (hdst : lookupFS fs p = none) (hdl : p.dropLast = x :: xs)
    (hpar : lookupFS fs p.dropLast = some .dir) :
    copy2 sfs fs p p = .ok (fs ++ [(p, .file c true)]) := by
  unfold copy2
  rw [hsrc]
  simp only [hdst]
  rw [hpar, hdl]

theorem copy_verify_file_ok {sfs fs : FS} {p : Path} {fs2 : FS}
    (h : copy2 sfs fs p p = .ok fs2) :
    copy_verify_file sfs fs p p
      = .ok (fs2, decide (get_md5 sfs p = get_md5 fs2 p)) := by
  unfold copy_verify_file
  rw [h]

theorem copy_object_step_dir {sfs : FS} {T : Snap} {st : CopySt}
    {it : Path × Option Md5Result} {fs2 : FS}
    (hd : should_copy T it.1 it.2) (hsrc : lookupFS sfs it.1 = some .dir)
    (hmk : mkdir_parents st.fs it.1 = .ok fs2) :
    copy_object_step sfs T st it = .ok ⟨fs2, st.total + 1, st.acted ++ [it.1]⟩ := by
  unfold copy_object_step
  rw [if_pos hd, hsrc]
  simp only [hmk]

theorem copy_object_step_fifo_new {sfs : FS} {T : Snap} {st : CopySt}
    {it : Path × Option Md5Result} {fs2 : FS}
    (hd : should_copy T it.1 it.2) (hsrc : lookupFS sfs it.1 = some .fifo)
    (hmk : mkfifo st.fs it.1 = .ok fs2) :
    copy_object_step sfs T st it = .ok ⟨fs2, st.total + 1, st.acted ++ [it.1]⟩ := by
  unfold copy_object_step
  rw [if_pos hd, hsrc]
  simp only [hmk]

theorem copy_object_step_fifo_exists {sfs : FS} {T : Snap} {st : CopySt}
    {it : Path × Option Md5Result}
    (hd : should_copy T it.1 it.2) (hsrc : lookupFS sfs it.1 = some .fifo)
    (hmk : mkfifo st.fs it.1 = .error .fileEx) :
    copy_object_step sfs T st it = .ok ⟨st.fs, st.total, st.acted ++ [it.1]⟩ := by
  unfold copy_object_step
  rw [if_pos hd, hsrc]
  simp only [hmk]

theorem copy_object_step_file {sfs : FS} {T : Snap} {st : CopySt}
    {it : Path × Option Md5Result} {c : List Byte} {fs2 : FS} {b : Bool}
    (hd : should_copy T it.1 it.2) (hsrc : lookupFS sfs it.1 = some (.file c true))
    (hcv : copy_verify_file sfs st.fs it.1 it.1 = .ok (fs2, b)) :
    copy_object_step sfs T st it = .ok ⟨fs2, st.total + 1, st.acted ++ [it.1]⟩ := by
  unfold copy_object_step
  rw [if_pos hd, hsrc]
  simp only [hcv]

theorem copy_object_step_skip {sfs : FS} {T : Snap} {st : CopySt}
    {it : Path × Option Md5Result} (hd : ¬ should_copy T it.1 it.2) :
    copy_object_step sfs T st it = .ok st := by
  unfold copy_object_step
  rw [if_neg hd]

/-! ### Extending the invariant by one processed item -/

theorem snapKeys_append (s1 s2 : Snap) : snapKeys (s1 ++ s2) = snapKeys s1 ++ snapKeys s2 := by
  simp [snapKeys]

theorem CopyInv_extend_nochange {fs_s fs_t : FS} {S pre : Snap}
    {it : Path × Option Md5Result} {cur : FS}
    (hinv : CopyInv fs_s fs_t S pre cur)
    (hm : srcMatch fs_s cur it) :
    CopyInv fs_s fs_t S (pre ++ [it]) cur := by
  obtain ⟨a, b, c, d⟩ := hinv
  refine ⟨a, b, ?_, ?_⟩
  · intro x hx
    rcases List.mem_append.1 hx with hx | hx
    · exact c x hx
    · rcases List.mem_singleton.1 hx with rfl
      exact hm
  · intro x hxS hxnot
    apply d x hxS
    intro hc
    apply hxnot
    rw [snapKeys_append]
    exact List.mem_append.2 (Or.inl hc)

theorem CopyInv_extend_append {fs_s fs_t : FS} {pre : Snap}
    {it : Path × Option Md5Result} {cur : FS} {es enew : Entry}
    (hinv : CopyInv fs_s fs_t (get_files_in_path fs_s) pre cur)
    (hitS : it ∈ get_files_in_path fs_s)
    (hitpre : it.1 ∉ snapKeys pre)
    (hnone : lookupFS cur it.1 = none)
    (hles : lookupFS fs_s it.1 = some es)
    (hval : entry_val enew = some it.2)
    (hkd : enew.kind = es.kind) :
    CopyInv fs_s fs_t (get_files_in_path fs_s) (pre ++ [it]) (cur ++ [(it.1, enew)]) := by
  obtain ⟨a, b, c, d⟩ := hinv
  have hnk : it.1 ∉ keysOf cur := lookupFS_eq_none.1 hnone
  have hitkeys : it.1 ∈ snapKeys (get_files_in_path fs_s) :=
    List.mem_map.2 ⟨it, hitS, rfl⟩
  refine ⟨?_, ?_, ?_, ?_⟩
  · rw [keysOf_append]
    rw [List.nodup_append]
    refine ⟨a, List.nodup_singleton _, ?_⟩
    intro x hx hx2
    rcases List.mem_singleton.1 hx2 with rfl
    exact hnk hx
  · intro q hq
    have hne : it.1 ≠ q := by
      intro h
      rw [h] at hitkeys
      exact hq hitkeys
    rw [lookupFS_append_ne hne]
    exact b q hq
  · intro x hx
    rcases List.mem_append.1 hx with hx | hx
    · obtain ⟨es', e', h1, h2, h3, h4⟩ := c x hx
      have hne : it.1 ≠ x.1 := by
        intro h
        apply hitpre
        rw [h]
        exact List.mem_map.2 ⟨x, hx, rfl⟩
      exact ⟨es', e', h1, by rw [lookupFS_append_ne hne]; exact h2, h3, h4⟩
    · rcases List.mem_singleton.1 hx with rfl
      exact ⟨es, enew, hles, lookupFS_append_self hnone _, hval, hkd⟩
  · intro x hxS hxnot
    have hne : it.1 ≠ x.1 := by
      intro h
      apply hxnot
      rw [snapKeys_append, ← h]
      exact List.mem_append.2 (Or.inr (List.mem_cons_self _ _))
    rw [lookupFS_append_ne hne]
    apply d x hxS
    intro hc
    apply hxnot
    rw [snapKeys_append]
    exact List.mem_append.2 (Or.inl hc)

theorem CopyInv_extend_replace {fs_s fs_t : FS} {pre : Snap}
    {it : Path × Option Md5Result} {cur : FS} {es eold enew : Entry}
    (hinv : CopyInv fs_s fs_t (get_files_in_path fs_s) pre cur)
    (hitS : it ∈ get_files_in_path fs_s)
    (hitpre : it.1 ∉ snapKeys pre)
    (hsome : lookupFS cur it.1 = some eold)
    (hles : lookupFS fs_s it.1 = some es)
    (hval : entry_val enew = some it.2)
    (hkd : enew.kind = es.kind) :
    CopyInv fs_s fs_t (get_files_in_path fs_s) (pre ++ [it]) (replaceFS cur it.1 enew) := by
  obtain ⟨a, b, c, d⟩ := hinv
  have hitkeys : it.1 ∈ snapKeys (get_files_in_path fs_s) :=
    List.mem_map.2 ⟨it, hitS, rfl⟩
  refine ⟨?_, ?_, ?_, ?_⟩
  · rw [keysOf_replace]
    exact a
  · intro q hq
    have hne : it.1 ≠ q := by
      intro h
      rw [h] at hitkeys
      exact hq hitkeys
    rw [lookupFS_replace_ne _ hne]
    exact b q hq
  · intro x hx
    rcases List.mem_append.1 hx with hx | hx
    · obtain ⟨es', e', h1, h2, h3, h4⟩ := c x hx
      have hne : it.1 ≠ x.1 := by
        intro h
        apply hitpre
        rw [h]
        exact List.mem_map.2 ⟨x, hx, rfl⟩
      exact ⟨es', e', h1, by rw [lookupFS_replace_ne _ hne]; exact h2, h3, h4⟩
    · rcases List.mem_singleton.1 hx with rfl
      exact ⟨es, enew, hles,
        lookupFS_replace_self (lookupFS_some_mem_keys hsome) _, hval, hkd⟩
  · intro x hxS hxnot
    have hne : it.1 ≠ x.1 := by
      intro h
      apply hxnot
      rw [snapKeys_append, ← h]
      exact List.mem_append.2 (Or.inr (List.mem_cons_self _ _))
    rw [lookupFS_replace_ne _ hne]
    apply d x hxS
    intro hc
    apply hxnot
    rw [snapKeys_append]
    exact List.mem_append.2 (Or.inl hc)

/-- One step of the copy phase preserves the invariant (and cannot abort)
under well-formed readable inputs with kind agreement and same-path
content matches. -/
theorem copy_step_inv {fs_s fs_t : FS}
    (hws : WF fs_s) (hwt : WF fs_t)
    (hrs : allReadable fs_s)
    (hkind : ∀ pe ∈ fs_s, ∀ qe ∈ fs_t, pe.1 = qe.1 → Entry.kind pe.2 = Entry.kind qe.2)
    (hsame : ∀ it ∈ get_files_in_path fs_s, it.2 ≠ none →
      it.2 ∈ snapValues (get_files_in_path fs_t) →
      snapLookup (get_files_in_path fs_t) it.1 = some it.2)
    {pre rest2 : Snap} {it : Path × Option Md5Result} {cur : FS} {tot : Nat}
    {acted : List Path}
    (hsplit : get_files_in_path fs_s = pre ++ it :: rest2)
    (hinv : CopyInv fs_s fs_t (get_files_in_path fs_s) pre cur) :
    ∃ st2 : CopySt,
      copy_object_step fs_s (get_files_in_path fs_t) ⟨cur, tot, acted⟩ it = .ok st2 ∧
      CopyInv fs_s fs_t (get_files_in_path fs_s) (pre ++ [it]) st2.fs := by
  obtain ⟨hndS_fs, hnilS, hpcS, hpwS, hspS⟩ := hws
  obtain ⟨hndT_fs, hnilT, hpcT, hpwT, hspT⟩ := hwt
  have hndSkeys : (snapKeys (get_files_in_path fs_s)).Nodup := snapKeys_nodup hndS_fs
  have hitS : it ∈ get_files_in_path fs_s := by
    rw [hsplit]
    exact List.mem_append.2 (Or.inr (List.mem_cons_self _ _))
  have hkeysplit : snapKeys (get_files_in_path fs_s)
      = snapKeys pre ++ it.1 :: snapKeys rest2 := by
    rw [hsplit]
    simp [snapKeys]
  have hit_notin_pre : it.1 ∉ snapKeys pre := by
    have hnd2 := hndSkeys
    rw [hkeysplit] at hnd2
    rcases List.nodup_append.1 hnd2 with ⟨_, _, hdisj⟩
    intro hmem
    exact hdisj hmem (List.mem_cons_self _ _)
  obtain ⟨es, hesMem, hesVal⟩ := mem_snapshot_elim hndS_fs hitS
  have hles : lookupFS fs_s it.1 = some es := lookupFS_of_mem_nodup hndS_fs hesMem
  have hitne : it.1 ≠ [] := hnilS (it.1, es) hesMem
  have hpwSnap : (snapKeys (get_files_in_path fs_s)).Pairwise
      (fun a b => a.dropLast ≠ b) := hpwS.sublist (snapKeys_sublist fs_s)
  have hnilSnap : ∀ x ∈ snapKeys (get_files_in_path fs_s), x ≠ [] := by
    intro x hx
    rcases mem_keys_exists hx with ⟨v, hv⟩
    rcases mem_snapshot_elim hndS_fs hv with ⟨e, he, _⟩
    exact hnilS (x, e) he
  have hancSnap : ∀ q, q ≠ [] → q <+: it.1.dropLast →
      q ∈ snapKeys (get_files_in_path fs_s) := by
    intro q hq hpre2
    have hqdir : (q, Entry.dir) ∈ fs_s := ancestors_dir hpcS hesMem hq hpre2
    exact List.mem_map.2 ⟨(q, none), mem_snapshot_of_mem hndS_fs hqdir rfl, rfl⟩
  obtain ⟨hndC, hframe, hmatch, hunproc⟩ := hinv
  have hancDirs : ∀ q ∈ nonNilPrefixes it.1.dropLast, lookupFS cur q = some .dir := by
    intro q hq
    rw [nonNilPrefixes_mem] at hq
    obtain ⟨hqne, hqpre⟩ := hq
    have hqdirS : (q, Entry.dir) ∈ fs_s := ancestors_dir hpcS hesMem hqne hqpre
    have hqvS : (q, (none : Option Md5Result)) ∈ get_files_in_path fs_s :=
      mem_snapshot_of_mem hndS_fs hqdirS rfl
    have hqInPre : q ∈ snapKeys pre :=
      chain_in_pre hpwSnap hkeysplit hnilSnap hancSnap q hqne hqpre
    obtain ⟨w, hwPre⟩ := mem_keys_exists hqInPre
    have hwS : (q, w) ∈ get_files_in_path fs_s := by
      rw [hsplit]
      exact List.mem_append.2 (Or.inl hwPre)
    have hw_none : w = none := mem_unique_of_nodup_keys hndSkeys hwS hqvS
    subst hw_none
    obtain ⟨es', e', hes', he', hev', hkd'⟩ := hmatch (q, none) hwPre
    have hes'dir : es' = .dir := by
      have h2 := lookupFS_of_mem_nodup hndS_fs hqdirS
      rw [hes'] at h2
      exact Option.some_injective _ h2
    rw [hes'dir] at hkd'
    have he'dir : e' = .dir := kind_dir_inv hkd'
    rw [he'dir] at he'
    exact he'
  have hinv2 : CopyInv fs_s fs_t (get_files_in_path fs_s) pre cur :=
    ⟨hndC, hframe, hmatch, hunproc⟩
  by_cases hd : should_copy (get_files_in_path fs_t) it.1 it.2
  · -- the phase acts on this item
    cases es with
    | special => cases hesVal
    | dir =>
      have hit2 : it.2 = none := by
        have h := hesVal
        simp only [entry_val] at h
        injection h with h
        exact h.symm
      rcases hunproc it hitS hit_notin_pre with hsame_t | ⟨hsdir, hcdir⟩
      · cases hft : lookupFS fs_t it.1 with
        | none =>
          have hcurnone : lookupFS cur it.1 = none := by rw [hsame_t, hft]
          have hmk := mkdir_parents_create hancDirs hitne hcurnone
          refine ⟨⟨cur ++ [(it.1, .dir)], tot + 1, acted ++ [it.1]⟩,
            copy_object_step_dir hd hles hmk, ?_⟩
          exact CopyInv_extend_append hinv2 hitS hit_notin_pre hcurnone hles
            (by simp [entry_val, hit2]) rfl
        | some et =>
          have hett : (it.1, et) ∈ fs_t := lookupFS_mem hft
          have hkd : Entry.dir.kind = et.kind :=
            hkind (it.1, .dir) hesMem (it.1, et) hett rfl
          have hetdir : et = .dir := kind_dir_inv hkd.symm
          have hcurdir : lookupFS cur it.1 = some .dir := by
            rw [hsame_t, hft, hetdir]
          have hmk := mkdir_parents_exists_dir hancDirs hitne hcurdir
          refine ⟨⟨cur, tot + 1, acted ++ [it.1]⟩,
            copy_object_step_dir hd hles hmk, ?_⟩
          exact CopyInv_extend_nochange hinv2
            ⟨.dir, .dir, hles, hcurdir, by simp [entry_val, hit2], rfl⟩
      · have hmk := mkdir_parents_exists_dir hancDirs hitne hcdir
        refine ⟨⟨cur, tot + 1, acted ++ [it.1]⟩,
          copy_object_step_dir hd hles hmk, ?_⟩
        exact CopyInv_extend_nochange hinv2
          ⟨.dir, .dir, hles, hcdir, by simp [entry_val, hit2], rfl⟩
    | fifo =>
      have hit2 : it.2 = none := by
        have h := hesVal
        simp only [entry_val] at h
        injection h with h
        exact h.symm
      rcases hunproc it hitS hit_notin_pre with hsame_t | ⟨hsdir, _⟩
      · cases hft : lookupFS fs_t it.1 with
        | some et =>
          have hcur : lookupFS cur it.1 = some et := by rw [hsame_t, hft]
          have hett : (it.1, et) ∈ fs_t := lookupFS_mem hft
          have hkd : Entry.fifo.kind = et.kind :=
            hkind (it.1, .fifo) hesMem (it.1, et) hett rfl
          have hetf : et = .fifo := kind_fifo_inv hkd.symm
          refine ⟨⟨cur, tot, acted ++ [it.1]⟩,
            copy_object_step_fifo_exists hd hles (mkfifo_exists hcur), ?_⟩
          refine CopyInv_extend_nochange hinv2
            ⟨.fifo, .fifo, hles, by rw [hcur, hetf], by simp [entry_val, hit2], rfl⟩
        | none =>
          have hcurnone : lookupFS cur it.1 = none := by rw [hsame_t, hft]
          have hmk : mkfifo cur it.1 = .ok (cur ++ [(it.1, .fifo)]) := by
            cases hdl : it.1.dropLast with
            | nil => exact mkfifo_create_root hcurnone hdl
            | cons x xs =>
              have hpar : lookupFS cur it.1.dropLast = some .dir := by
                apply hancDirs
                rw [nonNilPrefixes_mem]
                exact ⟨by rw [hdl]; simp, List.prefix_refl _⟩
              exact mkfifo_create_sub hcurnone hdl hpar
          refine ⟨⟨cur ++ [(it.1, .fifo)], tot + 1, acted ++ [it.1]⟩,
            copy_object_step_fifo_new hd hles hmk, ?_⟩
          exact CopyInv_extend_append hinv2 hitS hit_notin_pre hcurnone hles
            (by simp [entry_val, hit2]) rfl
      · exfalso
        rw [hles] at hsdir
        injection hsdir with hsdir
        cases hsdir
    | file c r =>
      have hr : r = true := by
        have h := hrs (it.1, .file c r) hesMem
        cases r with
        | false => simp [readOk] at h
        | true => rfl
      subst hr
      have hit2 : it.2 = some (.hash (hexdigest (stream_bytes c))) := by
        have h := hesVal
        simp only [entry_val] at h
        injection h with h
        exact h.symm
      rcases hunproc it hitS hit_notin_pre with hsame_t | ⟨hsdir, _⟩
      · cases hft : lookupFS fs_t it.1 with
        | none =>
          have hcurnone : lookupFS cur it.1 = none := by rw [hsame_t, hft]
          have hc2 : copy2 fs_s cur it.1 it.1 = .ok (cur ++ [(it.1, .file c true)]) := by
            cases hdl : it.1.dropLast with
            | nil => exact copy2_create_root hles hcurnone hdl
            | cons x xs =>
              have hpar : lookupFS cur it.1.dropLast = some .dir := by
                apply hancDirs
                rw [nonNilPrefixes_mem]
                exact ⟨by rw [hdl]; simp, List.prefix_refl _⟩
              exact copy2_create_sub hles hcurnone hdl hpar
          refine ⟨⟨cur ++ [(it.1, .file c true)], tot + 1, acted ++ [it.1]⟩,
            copy_object_step_file hd hles (copy_verify_file_ok hc2), ?_⟩
          exact CopyInv_extend_append hinv2 hitS hit_notin_pre hcurnone hles
            (by simp [entry_val, hit2]) rfl
        | some et =>
          have hett : (it.1, et) ∈ fs_t := lookupFS_mem hft
          have hkd : (Entry.file c true).kind = et.kind :=
            hkind (it.1, .file c true) hesMem (it.1, et) hett rfl
          obtain ⟨c', r', hetf⟩ := kind_file_inv hkd.symm
          have hcur : lookupFS cur it.1 = some (.file c' r') := by
            rw [hsame_t, hft, hetf]
          have hc2 := copy2_overwrite hles hcur
          refine ⟨⟨replaceFS cur it.1 (.file c true), tot + 1, acted ++ [it.1]⟩,
            copy_object_step_file hd hles (copy_verify_file_ok hc2), ?_⟩
          exact CopyInv_extend_replace hinv2 hitS hit_notin_pre hcur hles
            (by simp [entry_val, hit2]) rfl
      · exfalso
        rw [hles] at hsdir
        injection hsdir with hsdir
        cases hsdir
  · -- the guard skips this item
    refine ⟨⟨cur, tot, acted⟩, copy_object_step_skip hd, ?_⟩
    apply CopyInv_extend_nochange hinv2
    unfold should_copy at hd
    push_neg at hd
    obtain ⟨hkeyT, hvalT⟩ := hd
    obtain ⟨w, hwT⟩ := mem_keys_exists hkeyT
    obtain ⟨et, hetT, hetv⟩ := mem_snapshot_elim hndT_fs hwT
    have hft : lookupFS fs_t it.1 = some et := lookupFS_of_mem_nodup hndT_fs hetT
    have hkd : es.kind = et.kind := hkind (it.1, es) hesMem (it.1, et) hetT rfl
    rcases hunproc it hitS hit_notin_pre with hsame_t | ⟨hsdir, hcdir⟩
    · have hw_eq : w = it.2 := by
        by_cases hn : it.2 = none
        · rcases entry_val_none_cases (by rw [hn] at hesVal; exact hesVal) with hes1 | hes1
          · rw [hes1] at hkd
            have := kind_dir_inv hkd.symm
            rw [this] at hetv
            simp only [entry_val] at hetv
            injection hetv with hetv
            rw [hn, ← hetv]
          · rw [hes1] at hkd
            have := kind_fifo_inv hkd.symm
            rw [this] at hetv
            simp only [entry_val] at hetv
            injection hetv with hetv
            rw [hn, ← hetv]
        · have hv2 : it.2 ∈ snapValues (get_files_in_path fs_t) := hvalT hn
          have h1 := hsame it hitS hn hv2
          have h2 := snapLookup_of_mem_nodup (snapKeys_nodup hndT_fs) hwT
          rw [h1] at h2
          exact (Option.some_injective _ h2).symm
      exact ⟨es, et, hles, by rw [hsame_t, hft], by rw [hetv, hw_eq], hkd.symm⟩
    · have hesdir : es = .dir := by
        rw [hles] at hsdir
        exact Option.some_injective _ hsdir
      have hit2 : it.2 = none := by
        rw [hesdir] at hesVal
        simp only [entry_val] at hesVal
        injection hesVal with h
        exact h.symm
      exact ⟨es, .dir, hles, hcdir, by simp [entry_val, hit2], by rw [hesdir]⟩

/-- The copy phase runs to completion and establishes the invariant at
every source item. -/
theorem copy_go_inv {fs_s fs_t : FS}
    (hws : WF fs_s) (hwt : WF fs_t) (hrs : allReadable fs_s)
    (hkind : ∀ pe ∈ fs_s, ∀ qe ∈ fs_t, pe.1 = qe.1 → Entry.kind pe.2 = Entry.kind qe.2)
    (hsame : ∀ it ∈ get_files_in_path fs_s, it.2 ≠ none →
      it.2 ∈ snapValues (get_files_in_path fs_t) →
      snapLookup (get_files_in_path fs_t) it.1 = some it.2) :
    ∀ (rest pre : Snap) (cur : FS) (tot : Nat) (acted : List Path),
      get_files_in_path fs_s = pre ++ rest →
      CopyInv fs_s fs_t (get_files_in_path fs_s) pre cur →
      ∃ cst : CopySt,
        copy_objects_go fs_s (get_files_in_path fs_t) rest ⟨cur, tot, acted⟩ = .ok cst ∧
        CopyInv fs_s fs_t (get_files_in_path fs_s) (get_files_in_path fs_s) cst.fs := by
  intro rest
  induction rest with
  | nil =>
    intro pre cur tot acted hsplit hinv
    refine ⟨⟨cur, tot, acted⟩, rfl, ?_⟩
    have hpre : pre = get_files_in_path fs_s := by rw [hsplit]; simp
    rw [hpre] at hinv
    exact hinv
  | cons it rest2 ih =>
    intro pre cur tot acted hsplit hinv
    obtain ⟨st2, hstep, hinv2⟩ := copy_step_inv hws hwt hrs hkind hsame hsplit hinv
    obtain ⟨cst, hgo, hinvf⟩ := ih (pre ++ [it]) st2.fs st2.total st2.acted
      (by rw [hsplit, List.append_assoc]; rfl) hinv2
    refine ⟨cst, ?_, hinvf⟩
    unfold copy_objects_go
    rw [hstep]
    exact hgo

/-- `copy_objects` under the hypotheses of the amended idempotence claim:
it completes, and the resulting target tree matches the source snapshot
at every source path while agreeing with the original target elsewhere. -/
theorem copy_objects_inv {fs_s fs_t : FS}
    (hws : WF fs_s) (hwt : WF fs_t) (hrs : allReadable fs_s)
    (hkind : ∀ pe ∈ fs_s, ∀ qe ∈ fs_t, pe.1 = qe.1 → Entry.kind pe.2 = Entry.kind qe.2)
    (hsame : ∀ it ∈ get_files_in_path fs_s, it.2 ≠ none →
      it.2 ∈ snapValues (get_files_in_path fs_t) →
      snapLookup (get_files_in_path fs_t) it.1 = some it.2) :
    ∃ cst : CopySt,
      copy_objects (get_files_in_path fs_s) (get_files_in_path fs_t) fs_s fs_t = .ok cst ∧
      CopyInv fs_s fs_t (get_files_in_path fs_s) (get_files_in_path fs_s) cst.fs := by
  apply copy_go_inv hws hwt hrs hkind hsame (get_files_in_path fs_s) [] fs_t 0 []
  · simp
  · exact ⟨hwt.1, fun q _ => rfl, fun x hx => absurd hx (List.not_mem_nil x),
      fun x _ _ => Or.inl rfl⟩

theorem copy_objects_go_noop {sfs : FS} {T : Snap} :
    ∀ (l : Snap) (st : CopySt), (∀ it ∈ l, ¬ should_copy T it.1 it.2) →
      copy_objects_go sfs T l st = .ok st := by
  intro l
  induction l with
  | nil => intro st _; rfl
  | cons it rest ih =>
    intro st h
    unfold copy_objects_go
    rw [copy_object_step_skip (h it (List.mem_cons_self _ _))]
    exact ih st fun x hx => h x (List.mem_cons_of_mem _ hx)

theorem copy_objects_noop {S T : Snap} {sfs tfs : FS}
    (h : ∀ it ∈ S, ¬ should_copy T it.1 it.2) :
    copy_objects S T sfs tfs = .ok ⟨tfs, 0, []⟩ := by
  unfold copy_objects
  exact copy_objects_go_noop S ⟨tfs, 0, []⟩ h

/-! ### Remove-phase lemmas -/

theorem remove_sweep1_frame (S : Snap) :
    ∀ (ks : List Path) (st : RemoveSt) (q : Path),
      (q ∉ ks ∨ q ∈ snapKeys S) →
      lookupFS (remove_sweep1 S ks st).fs q = lookupFS st.fs q := by
  intro ks
  induction ks with
  | nil => intro st q _; rfl
  | cons k rest ih =>
    intro st q h
    have hq2 : q ∉ rest ∨ q ∈ snapKeys S := by
      rcases h with h | h
      · exact Or.inl fun hc => h (List.mem_cons_of_mem _ hc)
      · exact Or.inr h
    unfold remove_sweep1
    by_cases hk : k ∈ snapKeys S
    · rw [if_pos hk]
      exact ih st q hq2
    · rw [if_neg hk]
      have hqk : q ≠ k := by
        rcases h with h | h
        · exact fun hc => h (hc ▸ List.mem_cons_self _ _)
        · exact fun hc => hk (hc ▸ h)
      cases hlk : lookupFS st.fs k with
      | none => exact ih _ q hq2
      | some e =>
        cases e with
        | dir => exact ih _ q hq2
        | file c r =>
          rw [ih _ q hq2]
          exact lookupFS_remove_ne _ (fun hc => hqk hc.symm)
        | fifo =>
          rw [ih _ q hq2]
          exact lookupFS_remove_ne _ (fun hc => hqk hc.symm)
        | special =>
          rw [ih _ q hq2]
          exact lookupFS_remove_ne _ (fun hc => hqk hc.symm)

theorem remove_sweep1_dirs_mono (S : Snap) :
    ∀ (ks : List Path) (st : RemoveSt) (d : Path), d ∈ st.dirs_to_remove →
      d ∈ (remove_sweep1 S ks st).dirs_to_remove := by
  intro ks
  induction ks with
  | nil => intro st d h; exact h
  | cons k rest ih =>
    intro st d h
    unfold remove_sweep1
    by_cases hk : k ∈ snapKeys S
    · rw [if_pos hk]
      exact ih st d h
    · rw [if_neg hk]
      cases hlk : lookupFS st.fs k with
      | none => exact ih _ d h
      | some e =>
        cases e with
        | dir =>
          apply ih
          simp only [List.mem_append]
          exact Or.inl h
        | file c r => exact ih _ d h
        | fifo => exact ih _ d h
        | special => exact ih _ d h

theorem remove_sweep1_dirs_sub (S : Snap) :
    ∀ (ks : List Path) (st : RemoveSt) (d : Path),
      d ∈ (remove_sweep1 S ks st).dirs_to_remove →
      d ∈ st.dirs_to_remove ∨ (d ∈ ks ∧ d ∉ snapKeys S) := by
  intro ks
  induction ks with
  | nil => intro st d h; exact Or.inl h
  | cons k rest ih =>
    intro st d h
    unfold remove_sweep1 at h
    by_cases hk : k ∈ snapKeys S
    · rw [if_pos hk] at h
      rcases ih st d h with h | ⟨h1, h2⟩
      · exact Or.inl h
      · exact Or.inr ⟨List.mem_cons_of_mem _ h1, h2⟩
    · rw [if_neg hk] at h
      cases hlk : lookupFS st.fs k with
      | none =>
        rw [hlk] at h
        rcases ih _ d h with h | ⟨h1, h2⟩
        · exact Or.inl h
        · exact Or.inr ⟨List.mem_cons_of_mem _ h1, h2⟩
      | some e =>
        rw [hlk] at h
        cases e with
        | dir =>
          rcases ih _ d h with h | ⟨h1, h2⟩
          · simp only [List.mem_append, List.mem_singleton] at h
            rcases h with h | h
            · exact Or.inl h
            · exact Or.inr ⟨h ▸ List.mem_cons_self _ _, h ▸ hk⟩
          · exact Or.inr ⟨List.mem_cons_of_mem _ h1, h2⟩
        | file c r =>
          rcases ih _ d h with h | ⟨h1, h2⟩
          · exact Or.inl h
          · exact Or.inr ⟨List.mem_cons_of_mem _ h1, h2⟩
        | fifo =>
          rcases ih _ d h with h | ⟨h1, h2⟩
          · exact Or.inl h
          · exact Or.inr ⟨List.mem_cons_of_mem _ h1, h2⟩
        | special =>
          rcases ih _ d h with h | ⟨h1, h2⟩
          · exact Or.inl h
          · exact Or.inr ⟨List.mem_cons_of_mem _ h1, h2⟩

theorem remove_sweep1_keys_sublist (S : Snap) :
    ∀ (ks : List Path) (st : RemoveSt),
      (keysOf (remove_sweep1 S ks st).fs).Sublist (keysOf st.fs) := by
  intro ks
  induction ks with
  | nil => intro st; exact List.Sublist.refl _
  | cons k rest ih =>
    intro st
    unfold remove_sweep1
    by_cases hk : k ∈ snapKeys S
    · rw [if_pos hk]
      exact ih st
    · rw [if_neg hk]
      cases hlk : lookupFS st.fs k with
      | none => exact ih _
      | some e =>
        cases e with
        | dir => exact ih _
        | file c r => exact (ih _).trans (keysOf_remove_sublist _ _)
        | fifo => exact (ih _).trans (keysOf_remove_sublist _ _)
        | special => exact (ih _).trans (keysOf_remove_sublist _ _)

theorem remove_sweep1_orphan (S : Snap) :
    ∀ (ks : List Path) (st : RemoveSt) (q : Path), ks.Nodup → q ∈ ks →
      q ∉ snapKeys S →
      (lookupFS st.fs q = some Entry.dir →
        q ∈ (remove_sweep1 S ks st).dirs_to_remove ∧
        lookupFS (remove_sweep1 S ks st).fs q = some .dir) ∧
      (∀ e, lookupFS st.fs q = some e → e ≠ .dir →
        lookupFS (remove_sweep1 S ks st).fs q = none) ∧
      (lookupFS st.fs q = none → lookupFS (remove_sweep1 S ks st).fs q = none) := by
  intro ks
  induction ks with
  | nil => intro st q _ h; cases h
  | cons k rest ih =>
    intro st q hnd hq hqS
    rw [List.nodup_cons] at hnd
    rcases List.mem_cons.1 hq with hq | hq
    · subst hq
      have hqrest : q ∉ rest := hnd.1
      unfold remove_sweep1
      rw [if_neg hqS]
      refine ⟨?_, ?_, ?_⟩
      · intro hdir
        rw [hdir]
        constructor
        · apply remove_sweep1_dirs_mono
          simp
        · rw [remove_sweep1_frame S rest _ q (Or.inl hqrest)]
          exact hdir
      · intro e hle hne
        rw [hle]
        cases e with
        | dir => exact absurd rfl hne
        | file c r =>
          rw [remove_sweep1_frame S rest _ q (Or.inl hqrest)]
          exact lookupFS_remove_self _ _
        | fifo =>
          rw [remove_sweep1_frame S rest _ q (Or.inl hqrest)]
          exact lookupFS_remove_self _ _
        | special =>
          rw [remove_sweep1_frame S rest _ q (Or.inl hqrest)]
          exact lookupFS_remove_self _ _
      · intro hnone
        rw [hnone]
        rw [remove_sweep1_frame S rest _ q (Or.inl hqrest)]
        exact hnone
    · have hkq : k ≠ q := fun hc => hnd.1 (hc ▸ hq)
      unfold remove_sweep1
      by_cases hk : k ∈ snapKeys S
      · rw [if_pos hk]
        exact ih st q hnd.2 hq hqS
      · rw [if_neg hk]
        cases hlk : lookupFS st.fs k with
        | none => exact ih st q hnd.2 hq hqS
        | some e =>
          cases e with
          | dir =>
            exact ih ⟨st.fs, st.total, st.removed, st.dirs_to_remove ++ [k]⟩
              q hnd.2 hq hqS
          | file c r =>
            have h2 := ih ⟨removeFS st.fs k, st.total + 1, st.removed ++ [k],
              st.dirs_to_remove⟩ q hnd.2 hq hqS
            rw [lookupFS_remove_ne _ hkq] at h2
            exact h2
          | fifo =>
            have h2 := ih ⟨removeFS st.fs k, st.total + 1, st.removed ++ [k],
              st.dirs_to_remove⟩ q hnd.2 hq hqS
            rw [lookupFS_remove_ne _ hkq] at h2
            exact h2
          | special =>
            have h2 := ih ⟨removeFS st.fs k, st.total + 1, st.removed ++ [k],
              st.dirs_to_remove⟩ q hnd.2 hq hqS
            rw [lookupFS_remove_ne _ hkq] at h2
            exact h2

theorem remove_sweep1_dirs_nodup (S : Snap) :
    ∀ (ks : List Path) (st : RemoveSt), ks.Nodup → st.dirs_to_remove.Nodup →
      (∀ d ∈ st.dirs_to_remove, d ∉ ks) →
      (remove_sweep1 S ks st).dirs_to_remove.Nodup := by
  intro ks
  induction ks with
  | nil => intro st _ h _; exact h
  | cons k rest ih =>
    intro st hnd hdnd hdks
    rw [List.nodup_cons] at hnd
    unfold remove_sweep1
    by_cases hk : k ∈ snapKeys S
    · rw [if_pos hk]
      exact ih st hnd.2 hdnd fun d hd => fun hc => hdks d hd (List.mem_cons_of_mem _ hc)
    · rw [if_neg hk]
      cases hlk : lookupFS st.fs k with
      | none =>
        exact ih _ hnd.2 hdnd fun d hd => fun hc => hdks d hd (List.mem_cons_of_mem _ hc)
      | some e =>
        cases e with
        | dir =>
          apply ih _ hnd.2
          · rw [List.nodup_append]
            refine ⟨hdnd, List.nodup_singleton _, ?_⟩
            intro x hx hx2
            rcases List.mem_singleton.1 hx2 with rfl
            exact hdks x hx (List.mem_cons_self _ _)
          · intro d hd
            rcases List.mem_append.1 hd with hd | hd
            · exact fun hc => hdks d hd (List.mem_cons_of_mem _ hc)
            · rcases List.mem_singleton.1 hd with rfl
              exact hnd.1
        | file c r =>
          exact ih _ hnd.2 hdnd fun d hd => fun hc => hdks d hd (List.mem_cons_of_mem _ hc)
        | fifo =>
          exact ih _ hnd.2 hdnd fun d hd => fun hc => hdks d hd (List.mem_cons_of_mem _ hc)
        | special =>
          exact ih _ hnd.2 hdnd fun d hd => fun hc => hdks d hd (List.mem_cons_of_mem _ hc)

theorem remove_sweep1_noop (S : Snap) :
    ∀ (ks : List Path) (st : RemoveSt), (∀ q ∈ ks, q ∈ snapKeys S) →
      remove_sweep1 S ks st = st := by
  intro ks
  induction ks with
  | nil => intro st _; rfl
  | cons k rest ih =>
    intro st h
    unfold remove_sweep1
    rw [if_pos (h k (List.mem_cons_self _ _))]
    exact ih st fun q hq => h q (List.mem_cons_of_mem _ hq)

theorem remove_sweep2_keys_sublist :
    ∀ (ds : List Path) (fs : FS) (t : Nat) (rm : List Path)
      (out : FS × Nat × List Path),
      remove_sweep2 ds (fs, t, rm) = .ok out → (keysOf out.1).Sublist (keysOf fs) := by
  intro ds
  induction ds with
  | nil =>
    intro fs t rm out h
    cases h
    exact List.Sublist.refl _
  | cons p rest ih =>
    intro fs t rm out h
    unfold remove_sweep2 at h
    cases hlk : lookupFS fs p with
    | none =>
      rw [hlk] at h
      exact ih fs t rm out h
    | some e =>
      rw [hlk] at h
      by_cases hc : has_children fs p
      · rw [if_pos hc] at h
        cases h
      · rw [if_neg hc] at h
        exact (ih _ _ _ out h).trans (keysOf_remove_sublist _ _)

theorem remove_sweep2_frame :
    ∀ (ds : List Path) (fs : FS) (t : Nat) (rm : List Path)
      (out : FS × Nat × List Path),
      remove_sweep2 ds (fs, t, rm) = .ok out →
      ∀ q, q ∉ ds → lookupFS out.1 q = lookupFS fs q := by
  intro ds
  induction ds with
  | nil =>
    intro fs t rm out h q _
    cases h
    rfl
  | cons p rest ih =>
    intro fs t rm out h q hq
    have hqrest : q ∉ rest := fun hc => hq (List.mem_cons_of_mem _ hc)
    have hpq : p ≠ q := fun hc => hq (hc ▸ List.mem_cons_self _ _)
    unfold remove_sweep2 at h
    cases hlk : lookupFS fs p with
    | none =>
      rw [hlk] at h
      exact ih fs t rm out h q hqrest
    | some e =>
      rw [hlk] at h
      by_cases hc : has_children fs p
      · rw [if_pos hc] at h
        cases h
      · rw [if_neg hc] at h
        rw [ih _ _ _ out h q hqrest]
        exact lookupFS_remove_ne _ hpq

theorem remove_sweep2_removes :
    ∀ (ds : List Path) (fs : FS) (t : Nat) (rm : List Path)
      (out : FS × Nat × List Path), ds.Nodup →
      remove_sweep2 ds (fs, t, rm) = .ok out →
      ∀ d ∈ ds, lookupFS out.1 d = none := by
  intro ds
  induction ds with
  | nil => intro fs t rm out _ h d hd; cases hd
  | cons p rest ih =>
    intro fs t rm out hnd h d hd
    rw [List.nodup_cons] at hnd
    unfold remove_sweep2 at h
    cases hlk : lookupFS fs p with
    | none =>
      rw [hlk] at h
      rcases List.mem_cons.1 hd with hd | hd
      · subst hd
        rw [remove_sweep2_frame rest fs t rm out h d hnd.1]
        exact hlk
      · exact ih fs t rm out hnd.2 h d hd
    | some e =>
      rw [hlk] at h
      by_cases hc : has_children fs p
      · rw [if_pos hc] at h
        cases h
      · rw [if_neg hc] at h
        rcases List.mem_cons.1 hd with hd | hd
        · subst hd
          rw [remove_sweep2_frame rest _ _ _ out h d hnd.1]
          exact lookupFS_remove_self _ _
        · exact ih _ _ _ out hnd.2 h d hd

theorem remove_objects_eq (S T : Snap) (fs : FS) :
    remove_objects S T fs =
      match remove_sweep2 (remove_sweep1 S (snapKeys T) ⟨fs, 0, [], []⟩).dirs_to_remove
          ((remove_sweep1 S (snapKeys T) ⟨fs, 0, [], []⟩).fs,
            (remove_sweep1 S (snapKeys T) ⟨fs, 0, [], []⟩).total, []) with
      | .ok (fs2, total2, rdirs) =>
        .ok ⟨fs2, total2, (remove_sweep1 S (snapKeys T) ⟨fs, 0, [], []⟩).removed, rdirs⟩
      | .error e => .error e := rfl

/-- Characterization of a successful remove phase: orphans all gone,
everything else untouched, keys a sublist of the input's. -/
theorem remove_objects_ok_spec {S T : Snap} {fs : FS} {rst : RemoveResult}
    (hndT : (snapKeys T).Nodup)
    (hok : remove_objects S T fs = .ok rst) :
    (∀ q, q ∈ snapKeys T → q ∉ snapKeys S → lookupFS rst.fs q = none) ∧
    (∀ q, (q ∉ snapKeys T ∨ q ∈ snapKeys S) → lookupFS rst.fs q = lookupFS fs q) ∧
    (keysOf rst.fs).Sublist (keysOf fs) := by
  rw [remove_objects_eq] at hok
  cases hs2 : remove_sweep2
      (remove_sweep1 S (snapKeys T) ⟨fs, 0, [], []⟩).dirs_to_remove
      ((remove_sweep1 S (snapKeys T) ⟨fs, 0, [], []⟩).fs,
        (remove_sweep1 S (snapKeys T) ⟨fs, 0, [], []⟩).total, []) with
  | error e =>
    rw [hs2] at hok
    cases hok
  | ok out =>
    rw [hs2] at hok
    obtain ⟨fs2, t2, rd2⟩ := out
    cases hok
    have hds_sub : ∀ d ∈ (remove_sweep1 S (snapKeys T) ⟨fs, 0, [], []⟩).dirs_to_remove,
        d ∈ snapKeys T ∧ d ∉ snapKeys S := by
      intro d hd
      rcases remove_sweep1_dirs_sub S (snapKeys T) ⟨fs, 0, [], []⟩ d hd with hd | hd
      · cases hd
      · exact hd
    have hds_nodup : (remove_sweep1 S (snapKeys T) ⟨fs, 0, [], []⟩).dirs_to_remove.Nodup :=
      remove_sweep1_dirs_nodup S (snapKeys T) ⟨fs, 0, [], []⟩ hndT (List.nodup_nil)
        (fun d hd => absurd hd (List.not_mem_nil d))
    refine ⟨?_, ?_, ?_⟩
    · intro q hqT hqS
      have horph := remove_sweep1_orphan S (snapKeys T) ⟨fs, 0, [], []⟩ q hndT hqT hqS
      cases hlq : lookupFS fs q with
      | some e =>
        by_cases hdir : e = Entry.dir
        · subst hdir
          obtain ⟨hin, hstill⟩ := horph.1 hlq
          exact remove_sweep2_removes _ _ _ _ _ hds_nodup hs2 q hin
        · have h1 := horph.2.1 e hlq hdir
          have h2 := remove_sweep2_keys_sublist _ _ _ _ _ hs2
          rw [lookupFS_eq_none] at h1 ⊢
          exact fun hc => h1 (h2.subset hc)
      | none =>
        have h1 := horph.2.2 hlq
        have h2 := remove_sweep2_keys_sublist _ _ _ _ _ hs2
        rw [lookupFS_eq_none] at h1 ⊢
        exact fun hc => h1 (h2.subset hc)
    · intro q hq
      have hqds : q ∉ (remove_sweep1 S (snapKeys T) ⟨fs, 0, [], []⟩).dirs_to_remove := by
        intro hc
        rcases hds_sub q hc with ⟨h1, h2⟩
        rcases hq with hq | hq
        · exact hq h1
        · exact h2 hq
      rw [remove_sweep2_frame _ _ _ _ _ hs2 q hqds]
      exact remove_sweep1_frame S (snapKeys T) ⟨fs, 0, [], []⟩ q hq
    · exact (remove_sweep2_keys_sublist _ _ _ _ _ hs2).trans
        (remove_sweep1_keys_sublist S (snapKeys T) ⟨fs, 0, [], []⟩)

theorem remove_objects_noop {S T : Snap} {fs : FS}
    (h : ∀ q ∈ snapKeys T, q ∈ snapKeys S) :
    remove_objects S T fs = .ok ⟨fs, 0, [], []⟩ := by
  rw [remove_objects_eq]
  rw [remove_sweep1_noop S (snapKeys T) ⟨fs, 0, [], []⟩ h]
  rfl

/-! ### Claim theorems: idempotence of the reconciliation pass (C4) -/

theorem sync_pass_eq (fs_s fs_t : FS) :
    sync_pass fs_s fs_t =
      match copy_objects (get_files_in_path fs_s) (get_files_in_path fs_t) fs_s fs_t with
      | .error e => .error e
      | .ok cst =>
        match remove_objects (get_files_in_path fs_s) (get_files_in_path fs_t) cst.fs with
        | .error e => .error e
        | .ok rst => .ok ⟨rst.fs, cst.total, rst.total⟩ := rfl

/-- C4 counterexample: source holds `a` with content `[1]`; target holds
`a` with content `[0]` and `b` with content `[1]`.  The first pass skips
`a` (its hash appears at `b`), removes the orphan `b` (0 copies, 1
removal), and the second pass then copies `a` (1 copy) -- not zero. -/
theorem sync_pass_not_idempotent_cex :
    sync_pass [(["a"], Entry.file [1] true)]
        [(["a"], Entry.file [0] true), (["b"], Entry.file [1] true)]
      = .ok ⟨[(["a"], Entry.file [0] true)], 0, 1⟩ ∧
    sync_pass [(["a"], Entry.file [1] true)] [(["a"], Entry.file [0] true)]
      = .ok ⟨[(["a"], Entry.file [1] true)], 1, 0⟩ := by decide

/-- C4 (amended): for well-formed trees with all files readable, no
entry-kind conflict between source and target at a shared path, and
every content-hash match between a source file and the target value set
occurring at that same path, a completed first pass makes the second
pass perform zero copies and zero removals. -/
theorem sync_pass_second_pass_no_actions
    (fs_s fs_t : FS) (r1 : PassResult)
    (hws : WF fs_s) (hwt : WF fs_t)
    (hrs : allReadable fs_s) (_hrt : allReadable fs_t)
    (hkind : ∀ pe ∈ fs_s, ∀ qe ∈ fs_t, pe.1 = qe.1 → Entry.kind pe.2 = Entry.kind qe.2)
    (hsame : ∀ it ∈ get_files_in_path fs_s, it.2 ≠ none →
      it.2 ∈ snapValues (get_files_in_path fs_t) →
      snapLookup (get_files_in_path fs_t) it.1 = some it.2)
    (hok : sync_pass fs_s fs_t = .ok r1) :
    sync_pass fs_s r1.fs = .ok ⟨r1.fs, 0, 0⟩ := by
  obtain ⟨cst, hcopy, hinv⟩ := copy_objects_inv hws hwt hrs hkind hsame
  rw [sync_pass_eq, hcopy] at hok
  replace hok :
      (match remove_objects (get_files_in_path fs_s) (get_files_in_path fs_t) cst.fs with
        | Except.error e => Except.error e
        | Except.ok rst =>
          Except.ok (⟨rst.fs, cst.total, rst.total⟩ : PassResult)) = Except.ok r1 := hok
  cases hrem : remove_objects (get_files_in_path fs_s) (get_files_in_path fs_t) cst.fs with
  | error e =>
    rw [hrem] at hok
    cases hok
  | ok rst =>
    rw [hrem] at hok
    injection hok with hok
    subst hok
    obtain ⟨hndC, hframe, hmatch, _⟩ := hinv
    have hndT : (snapKeys (get_files_in_path fs_t)).Nodup := snapKeys_nodup hwt.1
    obtain ⟨Ro, Rf, Rk⟩ := remove_objects_ok_spec hndT hrem
    have hndR : (keysOf rst.fs).Nodup := Rk.nodup hndC
    have hmemT2 : ∀ it ∈ get_files_in_path fs_s, it ∈ get_files_in_path rst.fs := by
      intro it hit
      obtain ⟨es, e', hles, he', hev, hkd⟩ := hmatch it hit
      have hfsr : lookupFS rst.fs it.1 = some e' := by
        rw [Rf it.1 (Or.inr (List.mem_map.2 ⟨it, hit, rfl⟩))]
        exact he'
      exact mem_snapshot_of_mem hndR (lookupFS_mem hfsr) hev
    have hnocopy : ∀ it ∈ get_files_in_path fs_s,
        ¬ should_copy (get_files_in_path rst.fs) it.1 it.2 := by
      intro it hit hsc
      have h2 := hmemT2 it hit
      unfold should_copy at hsc
      rcases hsc with hsc | hsc
      · exact hsc (List.mem_map.2 ⟨it, h2, rfl⟩)
      · exact hsc.2 (List.mem_map.2 ⟨it, h2, rfl⟩)
    have hkeys2 : ∀ q ∈ snapKeys (get_files_in_path rst.fs),
        q ∈ snapKeys (get_files_in_path fs_s) := by
      intro q hq
      obtain ⟨v, hv⟩ := mem_keys_exists hq
      obtain ⟨e, heR, hev⟩ := mem_snapshot_elim hndR hv
      have hlr : lookupFS rst.fs q = some e := lookupFS_of_mem_nodup hndR heR
      by_contra hqS
      by_cases hqT : q ∈ snapKeys (get_files_in_path fs_t)
      · rw [Ro q hqT hqS] at hlr
        cases hlr
      · rw [Rf q (Or.inl hqT)] at hlr
        rw [hframe q hqS] at hlr
        have heT : (q, e) ∈ fs_t := lookupFS_mem hlr
        have hmem2 : (q, v) ∈ get_files_in_path fs_t :=
          mem_snapshot_of_mem hwt.1 heT hev
        exact hqT (List.mem_map.2 ⟨(q, v), hmem2, rfl⟩)
    show sync_pass fs_s rst.fs = .ok ⟨rst.fs, 0, 0⟩
    rw [sync_pass_eq]
    rw [copy_objects_noop hnocopy]
    show (match remove_objects (get_files_in_path fs_s) (get_files_in_path rst.fs) rst.fs with
      | Except.error e => Except.error e
      | Except.ok rst2 => Except.ok (⟨rst2.fs, 0, rst2.total⟩ : PassResult))
      = Except.ok (⟨rst.fs, 0, 0⟩ : PassResult)
    rw [remove_objects_noop hkeys2]

instance (fs : FS) : Decidable (WF fs) := by
  unfold WF parentClosed
  infer_instance

instance (fs : FS) : Decidable (allReadable fs) := by
  unfold allReadable
  infer_instance

theorem sync_pass_second_pass_no_actions_witness :
    sync_pass [(["a"], Entry.file [1] true)] [(["a"], Entry.file [1] true)]
      = .ok ⟨[(["a"], Entry.file [1] true)], 0, 0⟩ :=
  sync_pass_second_pass_no_actions [(["a"], Entry.file [1] true)] []
    ⟨[(["a"], Entry.file [1] true)], 1, 0⟩
    (by decide) (by decide) (by decide) (by decide) (by decide) (by decide) (by decide)

end Dirsync
